import Mathlib

/-!
FileLineCounter: a shallow embedding of `FileLineCounter.cpp` and the
properties of its producer/consumer pipeline.

The program has three kinds of threads: the main thread (which runs
`processQueue` in a loop), one discovery task (`searchForFilesInDirectory`)
and the counting tasks launched by `addLineCountingTask`.  The embedding keeps

* the member functions as functions on an explicit `State`
  (`addToQueue`, `addLineCountingTask`, `startFileSearchTask`, `processQueue`),
* the interleaving of the threads as a step function `step` driven by a
  schedule of events, one event being one atomic action of one thread.

Conventions.

* `std::atomic<std::uint64_t> LineCount` is a `Nat` reduced modulo `2 ^ 64`
  by `fetch_add`.
* A `std::future<void>` is a `Future`: the identifier of the shared state it
  refers to and its `valid()` flag.  The shared states live in `State.tasks`.
* An iterator into `m_threadList` is the index of the element it points to;
  `end()` is the length of the list.  The for loop of `processQueue` executes
  `task++` right after `task = m_threadList.erase(task)`; when the erased
  element was the last one this increments `end()`.  `std::list` is a circular
  list with a sentinel node in libstdc++, libc++ and the MSVC library, so the
  increment lands on `begin()`; the embedding follows that behaviour and
  records the event in `State.pastEnd`.
* Exceptions are `std::exception`s (the only kind the tasks can raise:
  `std::filesystem::filesystem_error`, `std::bad_alloc`).
-/

namespace FileLineCounter

/-! ## Data model -/

/-- A `std::filesystem::path`. -/
abbrev Path := String

/-- One `char` of a file. -/
abbrev Byte := Fin 256

/-- The character `'\n'`. -/
def newline : Byte := 10

/-- What `is_directory()` / `is_regular_file()` distinguish. -/
inductive file_type where
  | directory
  | regular
  | other
deriving DecidableEq

/-- A `std::filesystem::directory_entry`. -/
structure directory_entry where
  path : Path
  type : file_type
deriving DecidableEq

/-- The test `entryToProcess.is_directory()`. -/
def directory_entry.is_directory (e : directory_entry) : Bool :=
  e.type = file_type.directory

/-- The test `entryToProcess.is_regular_file()`. -/
def directory_entry.is_regular_file (e : directory_entry) : Bool :=
  e.type = file_type.regular

/-- A finite directory tree. -/
inductive FsNode where
  | directory (path : Path) (children : List FsNode)
  | regular_file (path : Path)
  | other (path : Path)

mutual
/-- The entries a recursive traversal yields for one node: the node itself,
then, for a directory, everything below it. -/
def walk : FsNode → List directory_entry
  | FsNode.directory p cs => ⟨p, file_type.directory⟩ :: walkAll cs
  | FsNode.regular_file p => [⟨p, file_type.regular⟩]
  | FsNode.other p => [⟨p, file_type.other⟩]
/-- The traversal of a list of sibling nodes. -/
def walkAll : List FsNode → List directory_entry
  | [] => []
  | c :: cs => walk c ++ walkAll cs
end

/-- The sequence `std::filesystem::recursive_directory_iterator(dir)` yields:
every descendant of `dir` once.  `main` only passes a directory. -/
def recursive_directory_iterator : FsNode → List directory_entry
  | FsNode.directory _ cs => walkAll cs
  | _ => []

/-- The contents of the file system: the bytes of the file at a path, or
`none` when the file cannot be opened. -/
abbrev FileSystem := Path → Option (List Byte)

/-- The stream `std::ifstream inFile{filePath, std::ios::binary}` delivers;
a file that cannot be opened delivers nothing. -/
def ifstream (fs : FileSystem) (filePath : Path) : List Byte :=
  (fs filePath).getD []

/-- The value of a signed 64-bit integer (`std::ptrdiff_t`) holding `z`. -/
def toInt64 (z : Int) : Int :=
  (z + 2 ^ 63) % 2 ^ 64 - 2 ^ 63

/-- The local `linesInFile` of the counting lambda:
`std::count(begin, end, '\n') + 1`, a `std::ptrdiff_t`. -/
def linesInFile (bytes : List Byte) : Int :=
  toInt64 (toInt64 (bytes.count newline) + 1)

/-- The call `LineCount.fetch_add(v)` on the 64-bit unsigned accumulator. -/
def fetch_add (LineCount : Nat) (v : Int) : Nat :=
  (((LineCount : Int) + v % 2 ^ 64) % 2 ^ 64).toNat

/-- The counting lambda `func` of `addLineCountingTask`, as a transformer of
the accumulator. -/
def func (fs : FileSystem) (filePath : Path) (LineCount : Nat) : Nat :=
  fetch_add LineCount (linesInFile (ifstream fs filePath))

/-- What a task launched with `std::async` runs. -/
inductive Work where
  | search
  | count (filePath : Path)
deriving DecidableEq

/-- The shared state of a task: still running, returned normally, or ended
with an exception. -/
inductive Outcome where
  | running
  | returned
  | threw
deriving DecidableEq

/-- An asynchronous task and its shared state. -/
structure Task where
  work : Work
  state : Outcome
deriving DecidableEq

/-- A `std::future<void>`: the task it refers to and `valid()`. -/
structure Future where
  id : Nat
  valid : Bool
deriving DecidableEq

/-- Where the main thread is: evaluating the condition of the top-up loop of
`processQueue`, at the head of the for loop with the iterator `task`, or past
the loop `while (fileQ.processQueue() == false)`. -/
inductive Pc where
  | topUp
  | scan (task : Nat)
  | exited
deriving DecidableEq

/-- The state of the program: the members of `FileLineCounter`, the global
`LineCount`, the shared states of the tasks, what the discovery task has
still to visit, and the position of the main thread. -/
structure State where
  m_fileQueue : List Path
  m_threadList : List Future
  MaxThreadCount : Nat
  LineCount : Nat
  tasks : List Task
  dirIter : List directory_entry
  pc : Pc
  cerr : List Nat
  cout : List Path
  pastEnd : Bool
deriving DecidableEq

/-- The shared state with identifier `id` in a table of tasks. -/
def outcomeOf (tasks : List Task) (id : Nat) : Outcome :=
  match tasks[id]? with
  | some t => t.state
  | none => Outcome.running

/-- The shared state a future with identifier `id` refers to. -/
def State.outcome (σ : State) (id : Nat) : Outcome :=
  outcomeOf σ.tasks id

/-- The paths handed to counting tasks, in launch order. -/
def launchedPaths : List Task → List Path
  | [] => []
  | ⟨Work.count p, _⟩ :: ts => p :: launchedPaths ts
  | ⟨Work.search, _⟩ :: ts => launchedPaths ts

/-! ## Member functions -/

/-- The member function `FileLineCounter::addToQueue`: push a path at the back
of the queue. -/
def addToQueue (σ : State) (filePath : Path) : State :=
  { σ with m_fileQueue := σ.m_fileQueue ++ [filePath] }

/-- The member function `FileLineCounter::addLineCountingTask`: pop the front of the queue and
launch a counting task for it; `false` when the queue is empty. -/
def addLineCountingTask (σ : State) : Bool × State :=
  match σ.m_fileQueue with
  | [] => (false, σ)
  | filePath :: rest =>
    (true, { σ with
      m_fileQueue := rest
      tasks := σ.tasks ++ [⟨Work.count filePath, Outcome.running⟩]
      m_threadList := σ.m_threadList ++ [⟨σ.tasks.length, true⟩] })

/-- The member function `FileLineCounter::startFileSearchTask`: launch the
discovery task and track its handle. -/
def startFileSearchTask (σ : State) : State :=
  { σ with
    tasks := σ.tasks ++ [⟨Work.search, Outcome.running⟩]
    m_threadList := σ.m_threadList ++ [⟨σ.tasks.length, true⟩] }

/-- The constructor `FileLineCounter(mainDir, maxThreadCount)`, with the
global `LineCount{0}`. -/
def construct (mainDir : FsNode) (maxThreadCount : Nat) : State :=
  startFileSearchTask
    { m_fileQueue := []
      m_threadList := []
      MaxThreadCount := maxThreadCount
      LineCount := 0
      tasks := []
      dirIter := recursive_directory_iterator mainDir
      pc := Pc.topUp
      cerr := []
      cout := []
      pastEnd := false }

/-- One iteration of the for loop of `processQueue` with the iterator at
index `task`, the increment `task++` included; returns the new state and the
new iterator. -/
def scanBody (σ : State) (task : Nat) : State × Nat :=
  match σ.m_threadList[task]? with
  | none => (σ, task + 1) -- not reached: the loop runs the body while `task != end()`
  | some f =>
    -- `task->valid() && task->wait_for(0ms) == std::future_status::ready`
    if f.valid && σ.outcome f.id != Outcome.running then
      match σ.outcome f.id with
      | Outcome.threw =>
        -- `get()` rethrows and leaves the future invalid; the handler logs
        ({ σ with
            m_threadList := σ.m_threadList.set task { f with valid := false }
            cerr := σ.cerr ++ [f.id] }, task + 1)
      | _ =>
        -- `task = m_threadList.erase(task)`, then `task++`
        let l := σ.m_threadList.eraseIdx task
        if task < l.length then ({ σ with m_threadList := l }, task + 1)
        else ({ σ with m_threadList := l, pastEnd := true }, 0)
    else (σ, task + 1)

/-- The body of the loop of `searchForFilesInDirectory` for one entry: skip a
directory, queue a regular file, report anything else on `std::cout`. -/
def searchEntry (σ : State) (entryToProcess : directory_entry) : State :=
  if entryToProcess.is_directory then σ
  else if entryToProcess.is_regular_file then addToQueue σ entryToProcess.path
  else { σ with cout := σ.cout ++ [entryToProcess.path] }

/-- The member function `FileLineCounter::searchForFilesInDirectory` run
without interference from the other threads. -/
def searchForFilesInDirectory (σ : State) (dir : FsNode) : State :=
  (recursive_directory_iterator dir).foldl searchEntry σ

/-- The top-up loop
`while ((m_threadList.size() < MaxThreadCount) && addLineCountingTask())`;
the first argument bounds the number of iterations. -/
def topUpLoop : Nat → State → State
  | 0, σ => σ
  | n + 1, σ =>
    if σ.m_threadList.length < σ.MaxThreadCount then
      match addLineCountingTask σ with
      | (true, σ') => topUpLoop n σ'
      | (false, σ') => σ'
    else σ

/-- The for loop of `processQueue` from the iterator `task` on, when no task
changes state meanwhile; `none` when the bound on the iterations is hit. -/
def scanLoop : Nat → State → Nat → Option State
  | 0, _, _ => none
  | n + 1, σ, task =>
    if task = σ.m_threadList.length then some σ
    else scanLoop n (scanBody σ task).1 (scanBody σ task).2

/-- The member function `FileLineCounter::processQueue` run without
interference from the other threads: the value it returns and the state it
leaves. -/
def processQueue (σ : State) : Option (Bool × State) :=
  let σ1 := topUpLoop (σ.m_fileQueue.length + 1) σ
  if σ1.m_threadList.isEmpty then some (true, σ1)
  else
    (scanLoop ((σ1.m_threadList.length + 1) * (σ1.m_threadList.length + 1)) σ1 0).map
      fun σ2 => (false, σ2)

/-- The value `processorCount` of `main` for a given result `h` of
`std::thread::hardware_concurrency()` (an `unsigned int`). -/
def processorCount (h : Nat) : Nat :=
  if h = 0 then 1 else (h + 2 ^ 32 - 1) % 2 ^ 32

/-! ## The threads, step by step -/

/-- An atomic action of one thread: the main thread, the discovery task, a
counting task returning, or a task ending with an exception. -/
inductive Event where
  | main
  | search
  | finish (id : Nat)
  | raise (id : Nat)
deriving DecidableEq

/-- What the main thread does once the condition of the top-up loop is false:
`if (m_threadList.empty()) return true;`, else enter the for loop. -/
def afterTopUp (σ : State) : State :=
  if σ.m_threadList.isEmpty then { σ with pc := Pc.exited }
  else { σ with pc := Pc.scan 0 }

/-- One action of the main thread. -/
def mainStep (σ : State) : State :=
  match σ.pc with
  | Pc.topUp =>
    if σ.m_threadList.length < σ.MaxThreadCount then
      match addLineCountingTask σ with
      | (true, σ') => σ'
      | (false, σ') => afterTopUp σ'
    else afterTopUp σ
  | Pc.scan task =>
    if task = σ.m_threadList.length then
      -- `return false;` and `main` calls `processQueue` again
      { σ with pc := Pc.topUp }
    else
      { (scanBody σ task).1 with pc := Pc.scan (scanBody σ task).2 }
  | Pc.exited => σ

/-- One action of the discovery task `searchForFilesInDirectory`: one
iteration of its loop, or its return when the iterator is exhausted. -/
def searchStep (σ : State) : State :=
  match σ.tasks[0]? with
  | some (Task.mk Work.search Outcome.running) =>
    match σ.dirIter with
    | [] => { σ with tasks := σ.tasks.set 0 ⟨Work.search, Outcome.returned⟩ }
    | entryToProcess :: rest => searchEntry { σ with dirIter := rest } entryToProcess
  | _ => σ

/-- A running counting task executes its lambda and returns. -/
def finishTask (fs : FileSystem) (σ : State) (id : Nat) : State :=
  match σ.tasks[id]? with
  | some (Task.mk (Work.count filePath) Outcome.running) =>
    { σ with
      LineCount := func fs filePath σ.LineCount
      tasks := σ.tasks.set id ⟨Work.count filePath, Outcome.returned⟩ }
  | _ => σ

/-- A running task ends with an exception, stored in its shared state. -/
def raiseTask (σ : State) (id : Nat) : State :=
  match σ.tasks[id]? with
  | some (Task.mk w Outcome.running) => { σ with tasks := σ.tasks.set id ⟨w, Outcome.threw⟩ }
  | _ => σ

/-- One event of the program. -/
def step (fs : FileSystem) (σ : State) : Event → State
  | Event.main => mainStep σ
  | Event.search => searchStep σ
  | Event.finish id => finishTask fs σ id
  | Event.raise id => raiseTask σ id

/-- The state after the first `n` events of a schedule. -/
def run (fs : FileSystem) (σ : State) (sched : Nat → Event) : Nat → State
  | 0 => σ
  | n + 1 => step fs (run fs σ sched n) (sched n)

/-- The program `main` runs for the directory `mainDir` with the cap `cap`,
after `n` events of the schedule. -/
def program (fs : FileSystem) (mainDir : FsNode) (cap : Nat) (sched : Nat → Event)
    (n : Nat) : State :=
  run fs (construct mainDir cap) sched n

/-! ## Specification-side quantities -/

/-- The number of newline bytes of the file at a path (`L` in the
specification); a file that cannot be opened has none. -/
def newlineBytes (fs : FileSystem) (p : Path) : Nat :=
  match fs p with
  | some bytes => bytes.count newline
  | none => 0

mutual
/-- What the specification expects a node of the tree to contribute to the
total: `L + 1` for a regular file, the sum of its children for a directory,
nothing for any other entry. -/
def expectedNode (fs : FileSystem) : FsNode → Nat
  | FsNode.directory _ cs => expectedAll fs cs
  | FsNode.regular_file p => newlineBytes fs p + 1
  | FsNode.other _ => 0
/-- The expected contribution of a list of sibling nodes. -/
def expectedAll (fs : FileSystem) : List FsNode → Nat
  | [] => 0
  | c :: cs => expectedNode fs c + expectedAll fs cs
end

/-- The total the specification expects for a scan of `mainDir`. -/
def expectedTotal (fs : FileSystem) : FsNode → Nat
  | FsNode.directory _ cs => expectedAll fs cs
  | _ => 0

/-- The paths of the regular files among directory entries, in order. -/
def regularFiles : List directory_entry → List Path
  | [] => []
  | e :: es => if e.is_regular_file then e.path :: regularFiles es else regularFiles es

/-- The sum of `L + 1` over a list of paths. -/
def lineSum (fs : FileSystem) : List Path → Nat
  | [] => 0
  | p :: ps => (newlineBytes fs p + 1) + lineSum fs ps

/-- The sum of `L + 1` over the counting tasks that have returned. -/
def countedSum (fs : FileSystem) : List Task → Nat
  | [] => 0
  | ⟨Work.count p, Outcome.returned⟩ :: ts => (newlineBytes fs p + 1) + countedSum fs ts
  | _ :: ts => countedSum fs ts

/-- The number of tasks still running. -/
def runningCount : List Task → Nat
  | [] => 0
  | ⟨_, Outcome.running⟩ :: ts => runningCount ts + 1
  | _ :: ts => runningCount ts

/-- The amount of work left: every action that changes anything but the
position of the main thread lowers it. -/
def workLeft (σ : State) : Nat :=
  4 * σ.dirIter.length + 3 * σ.m_fileQueue.length + runningCount σ.tasks
    + σ.m_threadList.length

/-- A call of one of the two queue operations. -/
inductive QueueCall where
  | addToQueue (filePath : Path)
  | addLineCountingTask
deriving DecidableEq

/-- The state after a sequence of queue operations. -/
def callSeq : List QueueCall → State → State
  | [], σ => σ
  | QueueCall.addToQueue p :: cs, σ => callSeq cs (addToQueue σ p)
  | QueueCall.addLineCountingTask :: cs, σ => callSeq cs (addLineCountingTask σ).2

/-- The paths a sequence of queue operations pushes, in order. -/
def pushedPaths : List QueueCall → List Path
  | [] => []
  | QueueCall.addToQueue p :: cs => p :: pushedPaths cs
  | QueueCall.addLineCountingTask :: cs => pushedPaths cs

/-- No event of the schedule is a task ending with an exception. -/
def NoRaise (sched : Nat → Event) : Prop :=
  ∀ n id, sched n ≠ Event.raise id

/-- Every thread keeps being scheduled: the main thread polls again and again,
the discovery task advances, and every counting task gets to finish. -/
def Fair (sched : Nat → Event) : Prop :=
  (∀ n, ∃ m, n ≤ m ∧ sched m = Event.main) ∧
  (∀ n, ∃ m, n ≤ m ∧ sched m = Event.search) ∧
  (∀ id n, ∃ m, n ≤ m ∧ sched m = Event.finish id)

/-- The schedule that plays a finite list of events and then lets the main
thread run alone. -/
def playList (l : List Event) (n : Nat) : Event :=
  l.getD n Event.main

/-- A schedule that serves the three kinds of thread in turn and every
counting task infinitely often. -/
def roundRobin (n : Nat) : Event :=
  match n % 3 with
  | 0 => Event.main
  | 1 => Event.search
  | _ => Event.finish (Nat.unpair (n / 3)).1

/-- The directory of the example in the specification, with a subdirectory
and an entry that is neither file nor directory added. -/
def exampleDir : FsNode :=
  FsNode.directory "dir"
    [FsNode.regular_file "dir/a.txt",
     FsNode.directory "dir/sub" [FsNode.other "dir/sub/pipe"],
     FsNode.regular_file "dir/b.txt"]

/-- The contents of the example: `a.txt` has three lines, each ended by a
newline byte, `b.txt` is empty. -/
def exampleFs : FileSystem := fun p =>
  if p = "dir/a.txt" then some [97, 10, 98, 10, 99, 10]
  else if p = "dir/b.txt" then some []
  else none


/-! ## Invariants -/

/-- The identifiers of the tracked task handles. -/
def State.ids (σ : State) : List Nat :=
  σ.m_threadList.map Future.id

/-- What holds in every state of a run started by the constructor with the cap
`cap` on a directory whose traversal yields `entries`. -/
structure Inv (cap : Nat) (fs : FileSystem) (entries : List directory_entry)
    (σ : State) : Prop where
  cap_eq : σ.MaxThreadCount = cap
  size_le : σ.m_threadList.length ≤ cap
  iter_le : ∀ task, σ.pc = Pc.scan task → task ≤ σ.m_threadList.length
  in_range : ∀ id ∈ σ.ids, id < σ.tasks.length
  tracked : ∀ id, id < σ.tasks.length → σ.outcome id = Outcome.returned ∨ id ∈ σ.ids
  invalid_threw : ∀ f ∈ σ.m_threadList, f.valid = false → σ.outcome f.id = Outcome.threw
  search_first : ∃ st, σ.tasks[0]? = some ⟨Work.search, st⟩
  only_search : ∀ id t, σ.tasks[id]? = some t → t.work = Work.search → id = 0
  search_done : σ.outcome 0 = Outcome.returned → σ.dirIter = []
  conserved :
    launchedPaths σ.tasks ++ σ.m_fileQueue ++ regularFiles σ.dirIter = regularFiles entries
  counted : σ.LineCount = countedSum fs σ.tasks % 2 ^ 64
  at_exit : σ.pc = Pc.exited → σ.m_threadList = [] ∧ σ.m_fileQueue = []

/-- No task has ended with an exception. -/
def NoneThrew (σ : State) : Prop :=
  ∀ id, σ.outcome id ≠ Outcome.threw

/-- Two states differ at most in the position of the main thread. -/
def SameWork (σ σ' : State) : Prop :=
  σ' = { σ with pc := σ'.pc }

/-- How far the main thread is from touching a handle when no task is
running. -/
def mainRank (σ : State) : Nat :=
  match σ.pc with
  | Pc.scan task => if task < σ.m_threadList.length then 0 else 2
  | Pc.topUp => 1
  | Pc.exited => 0

/-- Every task launched so far has returned. -/
def Quiet (σ : State) : Prop :=
  ∀ (id : Nat) (t : Task), σ.tasks[id]? = some t → t.state = Outcome.returned

/-! # Theorems -/

/-! ## The counting lambda -/

theorem toInt64_emod (z : Int) : toInt64 z % 2 ^ 64 = z % 2 ^ 64 := by
  unfold toInt64
  omega

theorem fetch_add_linesInFile (acc : Nat) (bytes : List Byte) :
    fetch_add acc (linesInFile bytes) = (acc + (bytes.count newline + 1)) % 2 ^ 64 := by
  unfold fetch_add linesInFile
  rw [toInt64_emod]
  have h1 := toInt64_emod (bytes.count newline : Int)
  generalize toInt64 (bytes.count newline : Int) = t at *
  generalize bytes.count newline = c at *
  omega

theorem count_ifstream (fs : FileSystem) (p : Path) :
    (ifstream fs p).count newline = newlineBytes fs p := by
  unfold ifstream newlineBytes
  cases fs p <;> simp

theorem func_eq (fs : FileSystem) (p : Path) (acc : Nat) :
    func fs p acc = (acc + (newlineBytes fs p + 1)) % 2 ^ 64 := by
  unfold func
  rw [fetch_add_linesInFile, count_ifstream]

/-! ## Lists of tasks and of handles -/

theorem launchedPaths_append (ts : List Task) (t : Task) :
    launchedPaths (ts ++ [t]) = launchedPaths ts ++ launchedPaths [t] := by
  induction ts with
  | nil => simp [launchedPaths]
  | cons a ts ih =>
    rcases a with ⟨w, s⟩
    cases w <;> simp [launchedPaths, ih]

theorem launchedPaths_set (ts : List Task) : ∀ (id : Nat) (w : Work) (s s' : Outcome),
    ts[id]? = some ⟨w, s⟩ → launchedPaths (ts.set id ⟨w, s'⟩) = launchedPaths ts := by
  induction ts with
  | nil => intro id w s s' h; simp at h
  | cons a ts ih =>
    intro id w s s' h
    cases id with
    | zero =>
      simp at h
      subst h
      cases w <;> simp [launchedPaths]
    | succ k =>
      simp at h
      rcases a with ⟨wa, sa⟩
      cases wa <;> simp [launchedPaths, ih k w s s' h]

theorem countedSum_append_running (fs : FileSystem) (ts : List Task) (w : Work) :
    countedSum fs (ts ++ [⟨w, Outcome.running⟩]) = countedSum fs ts := by
  induction ts with
  | nil => cases w <;> simp [countedSum]
  | cons a ts ih =>
    rcases a with ⟨wa, sa⟩
    cases wa <;> cases sa <;> simp [countedSum, ih]

theorem countedSum_set_search (fs : FileSystem) (ts : List Task) : ∀ (id : Nat) (s s' : Outcome),
    ts[id]? = some ⟨Work.search, s⟩ →
    countedSum fs (ts.set id ⟨Work.search, s'⟩) = countedSum fs ts := by
  induction ts with
  | nil => intro id s s' h; simp at h
  | cons a ts ih =>
    intro id s s' h
    cases id with
    | zero =>
      simp at h
      subst h
      cases s <;> cases s' <;> simp [countedSum]
    | succ k =>
      simp at h
      rcases a with ⟨wa, sa⟩
      cases wa <;> cases sa <;> simp [countedSum, ih k s s' h]

theorem countedSum_set_threw (fs : FileSystem) (ts : List Task) : ∀ (id : Nat) (w : Work),
    ts[id]? = some ⟨w, Outcome.running⟩ →
    countedSum fs (ts.set id ⟨w, Outcome.threw⟩) = countedSum fs ts := by
  induction ts with
  | nil => intro id w h; simp at h
  | cons a ts ih =>
    intro id w h
    cases id with
    | zero =>
      simp at h
      subst h
      cases w <;> simp [countedSum]
    | succ k =>
      simp at h
      rcases a with ⟨wa, sa⟩
      cases wa <;> cases sa <;> simp [countedSum, ih k w h]

theorem countedSum_set_returned (fs : FileSystem) (ts : List Task) : ∀ (id : Nat) (p : Path),
    ts[id]? = some ⟨Work.count p, Outcome.running⟩ →
    countedSum fs (ts.set id ⟨Work.count p, Outcome.returned⟩)
      = countedSum fs ts + (newlineBytes fs p + 1) := by
  induction ts with
  | nil => intro id p h; simp at h
  | cons a ts ih =>
    intro id p h
    cases id with
    | zero =>
      simp at h
      subst h
      simp [countedSum]
      omega
    | succ k =>
      simp at h
      rcases a with ⟨wa, sa⟩
      have hk := ih k p h
      cases wa <;> cases sa <;> simp only [List.set_cons_succ, countedSum, hk]
      all_goals omega

theorem runningCount_append_running (ts : List Task) (w : Work) :
    runningCount (ts ++ [⟨w, Outcome.running⟩]) = runningCount ts + 1 := by
  induction ts with
  | nil => simp [runningCount]
  | cons a ts ih =>
    rcases a with ⟨wa, sa⟩
    cases sa <;> simp [runningCount, ih]

theorem runningCount_set_done (ts : List Task) : ∀ (id : Nat) (w w' : Work) (s : Outcome),
    ts[id]? = some ⟨w, Outcome.running⟩ → s ≠ Outcome.running →
    runningCount (ts.set id ⟨w', s⟩) + 1 = runningCount ts := by
  induction ts with
  | nil => intro id w w' s h; simp at h
  | cons a ts ih =>
    intro id w w' s h hs
    cases id with
    | zero =>
      simp at h
      subst h
      cases s <;> simp [runningCount] at hs ⊢
    | succ k =>
      simp at h
      rcases a with ⟨wa, sa⟩
      cases sa <;> simp [runningCount, ih k w w' s h hs]

theorem ids_set_invalid (l : List Future) : ∀ (i : Nat) (f : Future), l[i]? = some f →
    (l.set i { f with valid := false }).map Future.id = l.map Future.id := by
  induction l with
  | nil => intro i f h; simp at h
  | cons a l ih =>
    intro i f h
    cases i with
    | zero =>
      simp at h
      subst h
      simp
    | succ k =>
      simp at h
      simp [ih k f h]

theorem mem_set_invalid (l : List Future) : ∀ (i : Nat) (f x : Future), l[i]? = some f →
    x ∈ l.set i { f with valid := false } → x ∈ l ∨ x = { f with valid := false } := by
  induction l with
  | nil => intro i f x h; simp at h
  | cons a l ih =>
    intro i f x h hx
    cases i with
    | zero =>
      simp at h hx
      rcases hx with hx | hx
      · right; exact hx
      · left; simp [hx]
    | succ k =>
      simp at h hx
      rcases hx with hx | hx
      · left; simp [hx]
      · rcases ih k f x h hx with h1 | h1
        · left; simp [h1]
        · right; exact h1

theorem mem_of_mem_eraseIdx' {α : Type} (l : List α) : ∀ (i : Nat) (x : α),
    x ∈ l.eraseIdx i → x ∈ l := by
  induction l with
  | nil => intro i x h; simp at h
  | cons a l ih =>
    intro i x h
    cases i with
    | zero => simp at h; simp [h]
    | succ k =>
      simp at h
      rcases h with h | h
      · simp [h]
      · simp [ih k x h]

theorem mem_eraseIdx_or {α : Type} (l : List α) : ∀ (i : Nat) (a x : α), l[i]? = some a →
    x ∈ l → x ∈ l.eraseIdx i ∨ x = a := by
  induction l with
  | nil => intro i a x h; simp at h
  | cons b l ih =>
    intro i a x h hx
    cases i with
    | zero =>
      simp at h hx ⊢
      subst h
      rcases hx with hx | hx
      · right; exact hx
      · left; exact hx
    | succ k =>
      simp at h hx ⊢
      rcases hx with hx | hx
      · left; left; exact hx
      · rcases ih k a x h hx with h1 | h1
        · left; right; exact h1
        · right; exact h1

theorem callSeq_fifo (calls : List QueueCall) : ∀ σ : State,
    launchedPaths (callSeq calls σ).tasks ++ (callSeq calls σ).m_fileQueue
      = launchedPaths σ.tasks ++ σ.m_fileQueue ++ pushedPaths calls := by
  induction calls with
  | nil => intro σ; simp [callSeq, pushedPaths]
  | cons c cs ih =>
    intro σ
    cases c with
    | addToQueue p =>
      simp only [callSeq, pushedPaths]
      rw [ih]
      simp [addToQueue]
    | addLineCountingTask =>
      simp only [callSeq, pushedPaths]
      rw [ih]
      cases hq : σ.m_fileQueue with
      | nil => simp [addLineCountingTask, hq]
      | cons p rest =>
        simp [addLineCountingTask, hq, launchedPaths_append, launchedPaths]

theorem outcomeOf_set_ne (ts : List Task) (id id' : Nat) (t : Task) (h : id' ≠ id) :
    outcomeOf (ts.set id t) id' = outcomeOf ts id' := by
  unfold outcomeOf
  rw [List.getElem?_set_ne (Ne.symm h)]

theorem outcomeOf_set_eq (ts : List Task) (id : Nat) (t : Task) (h : id < ts.length) :
    outcomeOf (ts.set id t) id = t.state := by
  unfold outcomeOf
  simp [List.getElem?_set, h]

theorem outcomeOf_append (ts l : List Task) (id : Nat) (h : id < ts.length) :
    outcomeOf (ts ++ l) id = outcomeOf ts id := by
  unfold outcomeOf
  rw [List.getElem?_append_left h]

theorem outcomeOf_of_getElem? (ts : List Task) (id : Nat) (t : Task) (h : ts[id]? = some t) :
    outcomeOf ts id = t.state := by
  unfold outcomeOf
  rw [h]

theorem lt_of_getElem? {α : Type} (l : List α) (i : Nat) (a : α) (h : l[i]? = some a) :
    i < l.length := by
  rcases List.getElem?_eq_some.1 h with ⟨hlt, _⟩
  exact hlt

/-- The constructor establishes the invariant. -/
theorem inv_construct (fs : FileSystem) (mainDir : FsNode) (cap : Nat) (hcap : 1 ≤ cap) :
    Inv cap fs (recursive_directory_iterator mainDir) (construct mainDir cap) where
  cap_eq := rfl
  size_le := by simpa [construct, startFileSearchTask] using hcap
  iter_le := by intro task h; simp [construct, startFileSearchTask] at h
  in_range := by simp [State.ids, construct, startFileSearchTask]
  tracked := by
    intro id h
    right
    simp [State.ids, construct, startFileSearchTask] at h ⊢
    omega
  invalid_threw := by simp [construct, startFileSearchTask]
  search_first := ⟨Outcome.running, by simp [construct, startFileSearchTask]⟩
  only_search := by
    intro id t h _
    have := lt_of_getElem? _ _ _ h
    simp [construct, startFileSearchTask] at this
    exact this
  search_done := by simp [State.outcome, outcomeOf, construct, startFileSearchTask]
  conserved := by simp [construct, startFileSearchTask, launchedPaths]
  counted := by simp [construct, startFileSearchTask, countedSum]
  at_exit := by simp [construct, startFileSearchTask]

/-! ## One call of `processQueue` -/

theorem scanBody_length (σ : State) (task : Nat) (h : task < σ.m_threadList.length) :
    ((scanBody σ task).1.m_threadList.length = σ.m_threadList.length ∧
        (scanBody σ task).2 = task + 1) ∨
      ((scanBody σ task).1.m_threadList.length + 1 = σ.m_threadList.length ∧
        (((scanBody σ task).2 = task + 1 ∧ task < (scanBody σ task).1.m_threadList.length) ∨
         ((scanBody σ task).2 = 0 ∧ task = (scanBody σ task).1.m_threadList.length))) := by
  unfold scanBody
  rw [List.getElem?_eq_getElem h]
  simp only
  split
  · split
    · left
      simp
    · right
      have hl : (σ.m_threadList.eraseIdx task).length + 1 = σ.m_threadList.length := by
        rw [List.length_eraseIdx, if_pos h]
        omega
      split
      · rename_i hlt
        exact ⟨hl, Or.inl ⟨rfl, hlt⟩⟩
      · rename_i hlt
        refine ⟨hl, Or.inr ⟨rfl, ?_⟩⟩
        show task = (σ.m_threadList.eraseIdx task).length
        omega
  · left
    simp

theorem scanLoop_isSome (fuel : Nat) : ∀ (σ : State) (task : Nat),
    task ≤ σ.m_threadList.length →
    σ.m_threadList.length * σ.m_threadList.length + (σ.m_threadList.length - task) + 1 ≤ fuel →
    (scanLoop fuel σ task).isSome = true := by
  induction fuel with
  | zero => intro σ task _ h; omega
  | succ n ih =>
    intro σ task hle hfuel
    unfold scanLoop
    split
    · rfl
    · rename_i hne
      have hlt : task < σ.m_threadList.length := by omega
      apply ih
      · rcases scanBody_length σ task hlt with ⟨h1, h2⟩ | ⟨h1, ⟨h2, h3⟩ | ⟨h2, h3⟩⟩ <;> omega
      · rcases scanBody_length σ task hlt with ⟨h1, h2⟩ | ⟨h1, ⟨h2, h3⟩ | ⟨h2, h3⟩⟩
        · rw [h1, h2]; omega
        · generalize (scanBody σ task).1.m_threadList.length = k at *
          generalize (scanBody σ task).2 = j at *
          rw [← h1] at hfuel
          have : (k + 1) * (k + 1) = k * k + 2 * k + 1 := by ring
          omega
        · generalize (scanBody σ task).1.m_threadList.length = k at *
          generalize (scanBody σ task).2 = j at *
          rw [← h1] at hfuel
          have : (k + 1) * (k + 1) = k * k + 2 * k + 1 := by ring
          omega

theorem topUpLoop_spec (n : Nat) : ∀ σ : State, σ.m_fileQueue.length < n →
    (¬ (topUpLoop n σ).m_threadList.length < σ.MaxThreadCount ∨ (topUpLoop n σ).m_fileQueue = []) ∧
    (topUpLoop n σ).MaxThreadCount = σ.MaxThreadCount ∧
    σ.m_threadList.length ≤ (topUpLoop n σ).m_threadList.length ∧
    ((topUpLoop n σ).m_threadList.length = σ.m_threadList.length → topUpLoop n σ = σ) := by
  induction n with
  | zero => intro σ h; omega
  | succ n ih =>
    intro σ h
    unfold topUpLoop
    split
    · rename_i hlt
      cases hq : σ.m_fileQueue with
      | nil =>
        simp [addLineCountingTask, hq]
      | cons p rest =>
        simp only [addLineCountingTask, hq]
        have := ih { σ with m_fileQueue := rest
                            tasks := σ.tasks ++ [⟨Work.count p, Outcome.running⟩]
                            m_threadList := σ.m_threadList ++ [⟨σ.tasks.length, true⟩] }
          (by simp [hq] at h ⊢; omega)
        simp only [List.length_append, List.length_singleton] at this
        refine ⟨this.1, this.2.1, by omega, ?_⟩
        intro hh
        omega
    · rename_i hlt
      exact ⟨Or.inl hlt, rfl, le_refl _, fun _ => rfl⟩

/-- Run alone, `processQueue` returns. -/
theorem processQueue_returns (σ : State) : ∃ b σ', processQueue σ = some (b, σ') := by
  unfold processQueue
  simp only
  split
  · exact ⟨_, _, rfl⟩
  · have h := scanLoop_isSome
      (((topUpLoop (σ.m_fileQueue.length + 1) σ).m_threadList.length + 1) *
        ((topUpLoop (σ.m_fileQueue.length + 1) σ).m_threadList.length + 1))
      (topUpLoop (σ.m_fileQueue.length + 1) σ) 0 (Nat.zero_le _)
      (by
        generalize (topUpLoop (σ.m_fileQueue.length + 1) σ).m_threadList.length = k
        have : (k + 1) * (k + 1) = k * k + 2 * k + 1 := by ring
        omega)
    rcases Option.isSome_iff_exists.1 h with ⟨σ2, h2⟩
    exact ⟨false, σ2, by rw [h2]; rfl⟩

section

variable {cap : Nat} {fs : FileSystem} {entries : List directory_entry} {σ : State}

theorem tasks_pos (h : Inv cap fs entries σ) : 0 < σ.tasks.length := by
  rcases h.search_first with ⟨st, hs⟩
  exact lt_of_getElem? _ _ _ hs

theorem inv_afterTopUp (hcap : 1 ≤ cap) (h : Inv cap fs entries σ)
    (hcond : ¬ σ.m_threadList.length < σ.MaxThreadCount ∨ σ.m_fileQueue = []) :
    Inv cap fs entries (afterTopUp σ) := by
  unfold afterTopUp
  split
  · rename_i hemp
    have hnil : σ.m_threadList = [] := by simpa using hemp
    exact
      { cap_eq := h.cap_eq
        size_le := h.size_le
        iter_le := by intro task ht; simp at ht
        in_range := h.in_range
        tracked := h.tracked
        invalid_threw := h.invalid_threw
        search_first := h.search_first
        only_search := h.only_search
        search_done := h.search_done
        conserved := h.conserved
        counted := h.counted
        at_exit := by
          intro _
          refine ⟨hnil, ?_⟩
          rcases hcond with hc | hc
          · rw [hnil, h.cap_eq] at hc
            simp at hc
            omega
          · exact hc }
  · exact
      { cap_eq := h.cap_eq
        size_le := h.size_le
        iter_le := by intro task ht; simp at ht; omega
        in_range := h.in_range
        tracked := h.tracked
        invalid_threw := h.invalid_threw
        search_first := h.search_first
        only_search := h.only_search
        search_done := h.search_done
        conserved := h.conserved
        counted := h.counted
        at_exit := by intro ht; simp at ht }

theorem inv_launch (h : Inv cap fs entries σ) (hpc : σ.pc = Pc.topUp)
    (hlt : σ.m_threadList.length < σ.MaxThreadCount) (p : Path) (rest : List Path)
    (hq : σ.m_fileQueue = p :: rest) :
    Inv cap fs entries
      { σ with
        m_fileQueue := rest
        tasks := σ.tasks ++ [⟨Work.count p, Outcome.running⟩]
        m_threadList := σ.m_threadList ++ [⟨σ.tasks.length, true⟩] } where
  cap_eq := h.cap_eq
  size_le := by
    have := h.cap_eq
    simp only [List.length_append, List.length_singleton]
    omega
  iter_le := by intro task ht; simp [hpc] at ht
  in_range := by
    intro id hid
    simp only [State.ids, List.map_append, List.mem_append, List.map_cons, List.map_nil,
      List.mem_singleton] at hid
    simp only [List.length_append, List.length_singleton]
    rcases hid with hid | hid
    · have := h.in_range id hid
      omega
    · omega
  tracked := by
    intro id hid
    simp only [List.length_append, List.length_singleton] at hid
    simp only [State.ids, State.outcome, List.map_append, List.mem_append, List.map_cons,
      List.map_nil, List.mem_singleton]
    by_cases hlt' : id < σ.tasks.length
    · rw [outcomeOf_append _ _ _ hlt']
      rcases h.tracked id hlt' with h1 | h1
      · exact Or.inl h1
      · exact Or.inr (Or.inl h1)
    · right; right; omega
  invalid_threw := by
    intro f hf hv
    simp only [List.mem_append, List.mem_singleton] at hf
    rcases hf with hf | hf
    · have hr := h.in_range f.id (List.mem_map_of_mem _ hf)
      simp only [State.outcome]
      rw [outcomeOf_append _ _ _ hr]
      exact h.invalid_threw f hf hv
    · subst hf
      simp at hv
  search_first := by
    rcases h.search_first with ⟨st, hs⟩
    refine ⟨st, ?_⟩
    show (σ.tasks ++ _)[0]? = _
    rw [List.getElem?_append_left (tasks_pos h)]
    exact hs
  only_search := by
    intro id t ht hw
    have hidlt := lt_of_getElem? _ _ _ ht
    simp only [List.length_append, List.length_singleton] at hidlt
    by_cases hlt' : id < σ.tasks.length
    · have ht' : σ.tasks[id]? = some t := by
        have : (σ.tasks ++ [(⟨Work.count p, Outcome.running⟩ : Task)])[id]? = some t := ht
        rwa [List.getElem?_append_left hlt'] at this
      exact h.only_search id t ht' hw
    · have hid : id = σ.tasks.length := by omega
      subst hid
      have : (σ.tasks ++ [(⟨Work.count p, Outcome.running⟩ : Task)])[σ.tasks.length]? = some t := ht
      simp at this
      subst this
      simp at hw
  search_done := by
    intro h0
    have : σ.outcome 0 = Outcome.returned := by
      simp only [State.outcome] at h0 ⊢
      rwa [outcomeOf_append _ _ _ (tasks_pos h)] at h0
    exact h.search_done this
  conserved := by
    have := h.conserved
    rw [hq] at this
    simp only [launchedPaths_append, launchedPaths]
    simpa using this
  counted := by
    simp only [countedSum_append_running]
    exact h.counted
  at_exit := by intro ht; simp [hpc] at ht

end

section

variable {cap : Nat} {fs : FileSystem} {entries : List directory_entry} {σ : State}

theorem inv_setIter (h : Inv cap fs entries σ) (j : Nat) (hj : j ≤ σ.m_threadList.length) :
    Inv cap fs entries { σ with pc := Pc.scan j } where
  cap_eq := h.cap_eq
  size_le := h.size_le
  iter_le := by intro task ht; simp at ht ⊢; omega
  in_range := h.in_range
  tracked := h.tracked
  invalid_threw := h.invalid_threw
  search_first := h.search_first
  only_search := h.only_search
  search_done := h.search_done
  conserved := h.conserved
  counted := h.counted
  at_exit := by intro ht; simp at ht

theorem inv_markInvalid (h : Inv cap fs entries σ) (task : Nat) (f : Future)
    (hf : σ.m_threadList[task]? = some f) (hthrew : σ.outcome f.id = Outcome.threw) :
    Inv cap fs entries
      { σ with
        m_threadList := σ.m_threadList.set task { f with valid := false }
        cerr := σ.cerr ++ [f.id]
        pc := Pc.scan (task + 1) } where
  cap_eq := h.cap_eq
  size_le := by simpa using h.size_le
  iter_le := by
    intro t ht
    have := lt_of_getElem? _ _ _ hf
    simp at ht ⊢
    omega
  in_range := by
    intro id hid
    simp only [State.ids, ids_set_invalid _ _ _ hf] at hid
    exact h.in_range id hid
  tracked := by
    intro id hid
    simp only [State.ids, ids_set_invalid _ _ _ hf]
    exact h.tracked id hid
  invalid_threw := by
    intro x hx hv
    rcases mem_set_invalid _ _ _ _ hf hx with h1 | h1
    · exact h.invalid_threw x h1 hv
    · subst h1
      exact hthrew
  search_first := h.search_first
  only_search := h.only_search
  search_done := h.search_done
  conserved := h.conserved
  counted := h.counted
  at_exit := by intro ht; simp at ht

theorem inv_erase (h : Inv cap fs entries σ) (task : Nat) (f : Future)
    (hf : σ.m_threadList[task]? = some f) (hret : σ.outcome f.id = Outcome.returned)
    (j : Nat) (hj : j ≤ (σ.m_threadList.eraseIdx task).length) (b : Bool) :
    Inv cap fs entries
      { σ with
        m_threadList := σ.m_threadList.eraseIdx task
        pastEnd := b
        pc := Pc.scan j } where
  cap_eq := h.cap_eq
  size_le := by
    have := h.size_le
    have hl : (σ.m_threadList.eraseIdx task).length ≤ σ.m_threadList.length := by
      rw [List.length_eraseIdx]
      split <;> omega
    exact le_trans hl this
  iter_le := by intro t ht; simp at ht ⊢; omega
  in_range := by
    intro id hid
    simp only [State.ids, List.mem_map] at hid
    rcases hid with ⟨x, hx, rfl⟩
    exact h.in_range x.id (List.mem_map_of_mem _ (mem_of_mem_eraseIdx' _ _ _ hx))
  tracked := by
    intro id hid
    rcases h.tracked id hid with h1 | h1
    · exact Or.inl h1
    · simp only [State.ids, List.mem_map] at h1
      rcases h1 with ⟨x, hx, rfl⟩
      rcases mem_eraseIdx_or _ _ _ _ hf hx with h2 | h2
      · exact Or.inr (List.mem_map_of_mem _ h2)
      · subst h2
        exact Or.inl hret
  invalid_threw := by
    intro x hx hv
    exact h.invalid_threw x (mem_of_mem_eraseIdx' _ _ _ hx) hv
  search_first := h.search_first
  only_search := h.only_search
  search_done := h.search_done
  conserved := h.conserved
  counted := h.counted
  at_exit := by intro ht; simp at ht

theorem outcome_cases (o : Outcome) (h1 : (o != Outcome.running) = true)
    (h2 : o = Outcome.threw → False) : o = Outcome.returned := by
  cases o <;> simp at h1 h2 ⊢

theorem inv_scan (h : Inv cap fs entries σ) (task : Nat)
    (hlt : task < σ.m_threadList.length) :
    Inv cap fs entries { (scanBody σ task).1 with pc := Pc.scan (scanBody σ task).2 } := by
  have hf : σ.m_threadList[task]? = some σ.m_threadList[task] := List.getElem?_eq_getElem hlt
  unfold scanBody
  rw [hf]
  simp only
  split
  · rename_i hc
    simp only [Bool.and_eq_true] at hc
    split
    · rename_i hthrew
      exact inv_markInvalid h task _ hf hthrew
    · rename_i hnot
      have hret := outcome_cases _ hc.2 hnot
      split
      · rename_i hlt'
        exact inv_erase h task _ hf hret (task + 1) hlt' σ.pastEnd
      · exact inv_erase h task _ hf hret 0 (Nat.zero_le _) true
  · exact inv_setIter h (task + 1) hlt

theorem inv_mainStep (hcap : 1 ≤ cap) (h : Inv cap fs entries σ) :
    Inv cap fs entries (mainStep σ) := by
  unfold mainStep
  split
  · rename_i hpc
    split
    · rename_i hlt
      cases hq : σ.m_fileQueue with
      | nil =>
        simp only [addLineCountingTask, hq]
        exact inv_afterTopUp hcap h (Or.inr hq)
      | cons p rest =>
        simp only [addLineCountingTask, hq]
        exact inv_launch h hpc hlt p rest hq
    · rename_i hlt
      exact inv_afterTopUp hcap h (Or.inl hlt)
  · rename_i task hpc
    split
    · exact
        { cap_eq := h.cap_eq
          size_le := h.size_le
          iter_le := by intro t ht; simp at ht
          in_range := h.in_range
          tracked := h.tracked
          invalid_threw := h.invalid_threw
          search_first := h.search_first
          only_search := h.only_search
          search_done := h.search_done
          conserved := h.conserved
          counted := h.counted
          at_exit := by intro ht; simp at ht }
    · rename_i hne
      have := h.iter_le task hpc
      exact inv_scan h task (by omega)
  · exact h

end

section

variable {cap : Nat} {fs : FileSystem} {entries : List directory_entry} {σ : State}

theorem mem_ids_of_running (h : Inv cap fs entries σ) (id : Nat) (w : Work)
    (ht : σ.tasks[id]? = some ⟨w, Outcome.running⟩) : id ∈ σ.ids := by
  rcases h.tracked id (lt_of_getElem? _ _ _ ht) with h1 | h1
  · simp [State.outcome, outcomeOf_of_getElem? _ _ _ ht] at h1
  · exact h1

theorem not_exited_of_running (h : Inv cap fs entries σ) (id : Nat) (w : Work)
    (ht : σ.tasks[id]? = some ⟨w, Outcome.running⟩) : σ.pc ≠ Pc.exited := by
  intro hpc
  have := mem_ids_of_running h id w ht
  rw [State.ids, (h.at_exit hpc).1] at this
  simp at this

theorem inv_setTask (h : Inv cap fs entries σ) (id : Nat) (w : Work) (s' : Outcome)
    (ht : σ.tasks[id]? = some ⟨w, Outcome.running⟩) (lc : Nat)
    (hlc : lc = countedSum fs (σ.tasks.set id ⟨w, s'⟩) % 2 ^ 64)
    (hsd : s' = Outcome.returned → id = 0 → σ.dirIter = []) :
    Inv cap fs entries { σ with LineCount := lc, tasks := σ.tasks.set id ⟨w, s'⟩ } where
  cap_eq := h.cap_eq
  size_le := h.size_le
  iter_le := h.iter_le
  in_range := by
    intro i hi
    have := h.in_range i hi
    simpa using this
  tracked := by
    intro i hi
    simp only [List.length_set] at hi
    by_cases hii : i = id
    · subst hii
      exact Or.inr (mem_ids_of_running h i w ht)
    · simp only [State.outcome]
      rw [outcomeOf_set_ne _ _ _ _ hii]
      exact h.tracked i hi
  invalid_threw := by
    intro f hf hv
    have hold := h.invalid_threw f hf hv
    have hne : f.id ≠ id := by
      intro he
      rw [he] at hold
      simp [State.outcome, outcomeOf_of_getElem? _ _ _ ht] at hold
    simp only [State.outcome]
    rw [outcomeOf_set_ne _ _ _ _ hne]
    exact hold
  search_first := by
    rcases h.search_first with ⟨st, hs⟩
    by_cases h0 : id = 0
    · subst h0
      rw [hs] at ht
      simp only [Option.some.injEq, Task.mk.injEq] at ht
      refine ⟨s', ?_⟩
      show (σ.tasks.set 0 _)[0]? = _
      rw [List.getElem?_set_self (tasks_pos h), ht.1]
    · refine ⟨st, ?_⟩
      show (σ.tasks.set id _)[0]? = _
      rw [List.getElem?_set_ne h0]
      exact hs
  only_search := by
    intro i t hi hw
    have hi' : (σ.tasks.set id ⟨w, s'⟩)[i]? = some t := hi
    by_cases hii : id = i
    · subst hii
      rw [List.getElem?_set_self (lt_of_getElem? _ _ _ ht)] at hi'
      simp only [Option.some.injEq] at hi'
      subst hi'
      exact h.only_search id _ ht hw
    · rw [List.getElem?_set_ne hii] at hi'
      exact h.only_search i t hi' hw
  search_done := by
    intro h0
    simp only [State.outcome] at h0
    by_cases hid : id = 0
    · subst hid
      rw [outcomeOf_set_eq _ _ _ (tasks_pos h)] at h0
      exact hsd h0 rfl
    · rw [outcomeOf_set_ne _ _ _ _ (Ne.symm hid)] at h0
      exact h.search_done h0
  conserved := by
    show launchedPaths (σ.tasks.set id ⟨w, s'⟩) ++ _ ++ _ = _
    rw [launchedPaths_set _ _ _ _ _ ht]
    exact h.conserved
  counted := hlc
  at_exit := h.at_exit

theorem inv_consume (h : Inv cap fs entries σ)
    (ht : σ.tasks[0]? = some ⟨Work.search, Outcome.running⟩) (q : List Path)
    (rest : List directory_entry) (c : List Path)
    (hcons : launchedPaths σ.tasks ++ q ++ regularFiles rest = regularFiles entries) :
    Inv cap fs entries { σ with m_fileQueue := q, dirIter := rest, cout := c } where
  cap_eq := h.cap_eq
  size_le := h.size_le
  iter_le := h.iter_le
  in_range := h.in_range
  tracked := h.tracked
  invalid_threw := h.invalid_threw
  search_first := h.search_first
  only_search := h.only_search
  search_done := by
    intro h0
    simp [State.outcome, outcomeOf_of_getElem? _ _ _ ht] at h0
  conserved := hcons
  counted := h.counted
  at_exit := by
    intro hpc
    have hpc' : σ.pc = Pc.exited := hpc
    exact absurd hpc' (not_exited_of_running h 0 _ ht)

theorem inv_searchStep (h : Inv cap fs entries σ) : Inv cap fs entries (searchStep σ) := by
  unfold searchStep
  split
  · rename_i ht
    split
    · rename_i hd
      refine inv_setTask h 0 Work.search Outcome.returned ht σ.LineCount ?_ (fun _ _ => hd)
      rw [countedSum_set_search _ _ _ _ _ ht]
      exact h.counted
    · rename_i e rest hd
      have hc := h.conserved
      rw [hd] at hc
      unfold searchEntry
      split
      · rename_i hdir
        refine inv_consume h ht σ.m_fileQueue rest σ.cout ?_
        have : e.is_regular_file = false := by
          simp [directory_entry.is_directory] at hdir
          simp [directory_entry.is_regular_file, hdir]
        simpa [regularFiles, this] using hc
      · split
        · rename_i hreg
          refine inv_consume h ht (σ.m_fileQueue ++ [e.path]) rest σ.cout ?_
          simpa [regularFiles, hreg] using hc
        · rename_i hreg
          refine inv_consume h ht σ.m_fileQueue rest (σ.cout ++ [e.path]) ?_
          simpa [regularFiles, hreg] using hc
  · exact h

theorem inv_finishTask (h : Inv cap fs entries σ) (id : Nat) :
    Inv cap fs entries (finishTask fs σ id) := by
  unfold finishTask
  split
  · rename_i p ht
    refine inv_setTask h id (Work.count p) Outcome.returned ht _ ?_ ?_
    · rw [countedSum_set_returned _ _ _ _ ht, func_eq, h.counted]
      omega
    · intro _ h0
      subst h0
      rcases h.search_first with ⟨st, hs⟩
      rw [hs] at ht
      simp at ht
  · exact h

theorem inv_raiseTask (h : Inv cap fs entries σ) (id : Nat) :
    Inv cap fs entries (raiseTask σ id) := by
  unfold raiseTask
  split
  · rename_i w ht
    refine inv_setTask h id w Outcome.threw ht σ.LineCount ?_ ?_
    · rw [countedSum_set_threw _ _ _ _ ht]
      exact h.counted
    · intro hh
      simp at hh
  · exact h

theorem inv_step (hcap : 1 ≤ cap) (h : Inv cap fs entries σ) (e : Event) :
    Inv cap fs entries (step fs σ e) := by
  cases e with
  | main => exact inv_mainStep hcap h
  | search => exact inv_searchStep h
  | finish id => exact inv_finishTask h id
  | raise id => exact inv_raiseTask h id

theorem inv_program (fs : FileSystem) (mainDir : FsNode) (cap : Nat) (hcap : 1 ≤ cap)
    (sched : Nat → Event) (n : Nat) :
    Inv cap fs (recursive_directory_iterator mainDir) (program fs mainDir cap sched n) := by
  induction n with
  | zero => exact inv_construct fs mainDir cap hcap
  | succ k ih => exact inv_step hcap ih (sched k)

end

section

variable {cap : Nat} {fs : FileSystem} {entries : List directory_entry} {σ : State}

/-! ## Progress -/

theorem scanBody_tasks (σ : State) (task : Nat) : (scanBody σ task).1.tasks = σ.tasks := by
  unfold scanBody
  split
  · rfl
  · split
    · split
      · rfl
      · dsimp only
        split <;> rfl
    · rfl

theorem afterTopUp_tasks (σ : State) : (afterTopUp σ).tasks = σ.tasks := by
  unfold afterTopUp
  split <;> rfl

theorem mainStep_tasks (σ : State) :
    (mainStep σ).tasks = σ.tasks ∨
      (∃ p, (mainStep σ).tasks = σ.tasks ++ [⟨Work.count p, Outcome.running⟩]) ∧
        σ.m_threadList.length < σ.MaxThreadCount := by
  unfold mainStep
  split
  · split
    · rename_i hlt
      cases hq : σ.m_fileQueue with
      | nil =>
        left
        simp only [addLineCountingTask, hq]
        exact afterTopUp_tasks σ
      | cons p rest =>
        right
        simp only [addLineCountingTask, hq]
        exact ⟨⟨p, rfl⟩, hlt⟩
    · left
      exact afterTopUp_tasks σ
  · split
    · left; rfl
    · left; exact scanBody_tasks σ _
  · left; rfl

theorem outcomeOf_append_running (ts : List Task) (w : Work) (id : Nat) (o : Outcome)
    (ho : o ≠ Outcome.running)
    (h : outcomeOf (ts ++ [⟨w, Outcome.running⟩]) id = o) : outcomeOf ts id = o := by
  by_cases hlt : id < ts.length
  · rwa [outcomeOf_append _ _ _ hlt] at h
  · unfold outcomeOf at h
    by_cases he : id = ts.length
    · subst he
      simp at h
      exact absurd h.symm ho
    · have : (ts ++ [(⟨w, Outcome.running⟩ : Task)])[id]? = none := by
        apply List.getElem?_eq_none
        simp
        omega
      rw [this] at h
      exact absurd h.symm ho

theorem outcomeOf_set_threw (ts : List Task) (id id' : Nat) (t : Task)
    (ht : t.state ≠ Outcome.threw)
    (h : outcomeOf (ts.set id t) id' = Outcome.threw) : outcomeOf ts id' = Outcome.threw := by
  by_cases he : id' = id
  · subst he
    by_cases hlt : id' < ts.length
    · rw [outcomeOf_set_eq _ _ _ hlt] at h
      exact absurd h ht
    · unfold outcomeOf at h
      have : (ts.set id' t)[id']? = none := by
        apply List.getElem?_eq_none
        simp
        omega
      rw [this] at h
      simp at h
  · rwa [outcomeOf_set_ne _ _ _ _ he] at h

theorem noneThrew_step (fs : FileSystem) (σ : State) (e : Event) (h : NoneThrew σ)
    (he : ∀ id, e ≠ Event.raise id) : NoneThrew (step fs σ e) := by
  intro id hid
  cases e with
  | main =>
    simp only [step, State.outcome] at hid
    rcases mainStep_tasks σ with h1 | ⟨⟨p, h1⟩, _⟩
    · rw [h1] at hid
      exact h id hid
    · rw [h1] at hid
      exact h id (outcomeOf_append_running _ _ _ _ (by simp) hid)
  | search =>
    simp only [step, searchStep, searchEntry] at hid
    split at hid
    · split at hid
      · exact h id (outcomeOf_set_threw _ _ _ _ (by simp) hid)
      · split at hid
        · exact h id hid
        · split at hid
          · exact h id hid
          · exact h id hid
    · exact h id hid
  | finish i =>
    simp only [step, finishTask] at hid
    split at hid
    · exact h id (outcomeOf_set_threw _ _ _ _ (by simp) hid)
    · exact h id hid
  | raise i => exact absurd rfl (he i)

theorem noneThrew_construct (mainDir : FsNode) (cap : Nat) : NoneThrew (construct mainDir cap) := by
  intro id
  simp only [State.outcome, outcomeOf, construct, startFileSearchTask]
  cases id <;> simp

theorem noneThrew_program (fs : FileSystem) (mainDir : FsNode) (cap : Nat)
    (sched : Nat → Event) (hs : NoRaise sched) (n : Nat) :
    NoneThrew (program fs mainDir cap sched n) := by
  induction n with
  | zero => exact noneThrew_construct mainDir cap
  | succ k ih => exact noneThrew_step fs _ _ ih (fun id => hs k id)

theorem sameWork_refl (σ : State) : SameWork σ σ := rfl

theorem sameWork_trans {a b c : State} (h1 : SameWork a b) (h2 : SameWork b c) :
    SameWork a c := by
  unfold SameWork at *
  rw [h2, h1]

theorem sameWork_workLeft {a b : State} (h : SameWork a b) : workLeft b = workLeft a := by
  unfold SameWork at h
  rw [h]
  rfl

theorem sameWork_tasks {a b : State} (h : SameWork a b) : b.tasks = a.tasks := by
  unfold SameWork at h
  rw [h]

/-- A step of the discovery task that is still running lowers the work left. -/
theorem searchStep_workLeft (σ : State)
    (ht : σ.tasks[0]? = some ⟨Work.search, Outcome.running⟩) :
    workLeft (searchStep σ) < workLeft σ := by
  unfold searchStep
  rw [ht]
  simp only
  split
  · rename_i hd
    have := runningCount_set_done σ.tasks 0 Work.search Work.search Outcome.returned ht (by simp)
    simp only [workLeft, hd, List.length_nil]
    omega
  · rename_i e rest hd
    unfold searchEntry
    split
    · simp only [workLeft, hd, List.length_cons]
      omega
    · split
      · simp only [workLeft, addToQueue, hd, List.length_cons, List.length_append,
          List.length_nil]
        omega
      · simp only [workLeft, hd, List.length_cons]
        omega

theorem searchStep_idle (σ : State)
    (ht : σ.tasks[0]? ≠ some ⟨Work.search, Outcome.running⟩) : searchStep σ = σ := by
  unfold searchStep
  split
  · rename_i h
    exact absurd h ht
  · rfl

theorem finishTask_workLeft (fs : FileSystem) (σ : State) (id : Nat) (p : Path)
    (ht : σ.tasks[id]? = some ⟨Work.count p, Outcome.running⟩) :
    workLeft (finishTask fs σ id) < workLeft σ := by
  unfold finishTask
  rw [ht]
  simp only
  have := runningCount_set_done σ.tasks id (Work.count p) (Work.count p) Outcome.returned ht
    (by simp)
  simp only [workLeft]
  omega

theorem finishTask_idle (fs : FileSystem) (σ : State) (id : Nat)
    (ht : ∀ p, σ.tasks[id]? ≠ some ⟨Work.count p, Outcome.running⟩) :
    finishTask fs σ id = σ := by
  unfold finishTask
  split
  · rename_i p h
    exact absurd h (ht p)
  · rfl

end

section

variable {cap : Nat} {fs : FileSystem} {entries : List directory_entry} {σ : State}

theorem scanBody_stutter (σ : State) (hn : NoneThrew σ) (task : Nat)
    (hlt : task < σ.m_threadList.length) :
    workLeft (scanBody σ task).1 < workLeft σ ∨ (scanBody σ task).1 = σ := by
  have hf : σ.m_threadList[task]? = some σ.m_threadList[task] := List.getElem?_eq_getElem hlt
  unfold scanBody
  rw [hf]
  simp only
  split
  · split
    · rename_i hthrew
      exact absurd hthrew (hn _)
    · left
      have hl : (σ.m_threadList.eraseIdx task).length + 1 = σ.m_threadList.length := by
        rw [List.length_eraseIdx, if_pos hlt]
        omega
      split
      · simp only [workLeft]
        omega
      · simp only [workLeft]
        omega
  · right; rfl

theorem scanBody_quiet (h : Inv cap fs entries σ) (hq : Quiet σ) (task : Nat)
    (hlt : task < σ.m_threadList.length) :
    workLeft (scanBody σ task).1 < workLeft σ := by
  have hf : σ.m_threadList[task]? = some σ.m_threadList[task] := List.getElem?_eq_getElem hlt
  have hmem : σ.m_threadList[task] ∈ σ.m_threadList := List.getElem_mem hlt
  have hr := h.in_range _ (List.mem_map_of_mem Future.id hmem)
  have hret : σ.outcome (σ.m_threadList[task]).id = Outcome.returned := by
    have := hq _ _ (List.getElem?_eq_getElem hr)
    simp only [State.outcome]
    rw [outcomeOf_of_getElem? _ _ _ (List.getElem?_eq_getElem hr)]
    exact this
  have hvalid : (σ.m_threadList[task]).valid = true := by
    by_contra hv
    have := h.invalid_threw _ hmem (by simpa using hv)
    rw [hret] at this
    simp at this
  unfold scanBody
  rw [hf]
  simp only
  split
  · split
    · rename_i hthrew
      rw [hret] at hthrew
      simp at hthrew
    · have hl : (σ.m_threadList.eraseIdx task).length + 1 = σ.m_threadList.length := by
        rw [List.length_eraseIdx, if_pos hlt]
        omega
      split
      · simp only [workLeft]
        omega
      · simp only [workLeft]
        omega
  · rename_i hc
    simp [hvalid, hret] at hc

theorem sameWork_setPc (σ : State) (pc : Pc) : SameWork σ { σ with pc := pc } := rfl

theorem afterTopUp_sameWork (σ : State) : SameWork σ (afterTopUp σ) := by
  unfold afterTopUp
  split <;> exact sameWork_setPc _ _

theorem launch_workLeft (σ : State) (p : Path) (rest : List Path)
    (hq : σ.m_fileQueue = p :: rest) :
    workLeft
      { σ with
        m_fileQueue := rest
        tasks := σ.tasks ++ [⟨Work.count p, Outcome.running⟩]
        m_threadList := σ.m_threadList ++ [⟨σ.tasks.length, true⟩] } < workLeft σ := by
  simp only [workLeft, hq, runningCount_append_running, List.length_append, List.length_cons,
    List.length_nil]
  omega

/-- An action of the main thread lowers the work left or moves only the main
thread. -/
theorem mainStep_stutter (h : Inv cap fs entries σ) (hn : NoneThrew σ) :
    workLeft (mainStep σ) < workLeft σ ∨ SameWork σ (mainStep σ) := by
  unfold mainStep
  split
  · split
    · cases hq : σ.m_fileQueue with
      | nil =>
        right
        simp only [addLineCountingTask, hq]
        exact afterTopUp_sameWork σ
      | cons p rest =>
        left
        simp only [addLineCountingTask, hq]
        exact launch_workLeft σ p rest hq
    · right
      exact afterTopUp_sameWork σ
  · rename_i task hpc
    split
    · right
      exact sameWork_setPc _ _
    · rename_i hne
      have hlt : task < σ.m_threadList.length := by
        have := h.iter_le task hpc
        omega
      rcases scanBody_stutter σ hn task hlt with h1 | h1
      · left
        exact h1
      · right
        rw [h1]
        exact sameWork_setPc _ _
  · right
    exact sameWork_refl σ

/-- When every task has returned, an action of the main thread lowers the work
left, leaves the loop of `main`, or brings the main thread closer to a handle. -/
theorem mainStep_quiet (h : Inv cap fs entries σ) (hq : Quiet σ) (hpc : σ.pc ≠ Pc.exited) :
    workLeft (mainStep σ) < workLeft σ ∨ (mainStep σ).pc = Pc.exited ∨
      (SameWork σ (mainStep σ) ∧ mainRank (mainStep σ) < mainRank σ) := by
  have hafter : (afterTopUp σ).pc = Pc.exited ∨
      (SameWork σ (afterTopUp σ) ∧ mainRank (afterTopUp σ) < 1) := by
    unfold afterTopUp
    split
    · left; rfl
    · rename_i hemp
      right
      refine ⟨sameWork_setPc _ _, ?_⟩
      have : 0 < σ.m_threadList.length := by
        cases hl : σ.m_threadList with
        | nil => simp [hl] at hemp
        | cons a l => simp
      simp [mainRank, this]
  unfold mainStep
  split
  · rename_i hpc'
    have hrank : mainRank σ = 1 := by simp [mainRank, hpc']
    rw [hrank]
    split
    · cases hq' : σ.m_fileQueue with
      | nil =>
        right
        simp only [addLineCountingTask, hq']
        exact hafter
      | cons p rest =>
        left
        simp only [addLineCountingTask, hq']
        exact launch_workLeft σ p rest hq'
    · right
      exact hafter
  · rename_i task hpc'
    split
    · rename_i he
      right; right
      refine ⟨sameWork_setPc _ _, ?_⟩
      simp [mainRank, hpc', he]
    · rename_i hne
      have hlt : task < σ.m_threadList.length := by
        have := h.iter_le task hpc'
        omega
      left
      exact scanBody_quiet h hq task hlt
  · rename_i hpc'
    exact absurd hpc' hpc

end

section

variable {cap : Nat} {fs : FileSystem} {entries : List directory_entry} {σ : State}

theorem step_stutter (h : Inv cap fs entries σ) (hn : NoneThrew σ) (e : Event)
    (he : ∀ id, e ≠ Event.raise id) :
    workLeft (step fs σ e) < workLeft σ ∨ SameWork σ (step fs σ e) := by
  cases e with
  | main => exact mainStep_stutter h hn
  | search =>
    by_cases ht : σ.tasks[0]? = some ⟨Work.search, Outcome.running⟩
    · exact Or.inl (searchStep_workLeft σ ht)
    · right
      simp only [step]
      rw [searchStep_idle σ ht]
      exact sameWork_refl σ
  | finish id =>
    by_cases ht : ∃ p, σ.tasks[id]? = some ⟨Work.count p, Outcome.running⟩
    · rcases ht with ⟨p, hp⟩
      exact Or.inl (finishTask_workLeft fs σ id p hp)
    · right
      simp only [step]
      rw [finishTask_idle fs σ id (fun p hp => ht ⟨p, hp⟩)]
      exact sameWork_refl σ
  | raise id => exact absurd rfl (he id)

theorem step_quiet_idle (fs : FileSystem) (σ : State) (hq : Quiet σ) (e : Event)
    (he : ∀ id, e ≠ Event.raise id) (hm : e ≠ Event.main) : step fs σ e = σ := by
  cases e with
  | main => exact absurd rfl hm
  | search =>
    apply searchStep_idle
    intro ht
    have := hq _ _ ht
    simp at this
  | finish id =>
    apply finishTask_idle
    intro p ht
    have := hq _ _ ht
    simp at this
  | raise id => exact absurd rfl (he id)

section Run

variable (fs : FileSystem) (mainDir : FsNode) (cap : Nat) (sched : Nat → Event)

theorem program_succ (n : Nat) :
    program fs mainDir cap sched (n + 1) = step fs (program fs mainDir cap sched n) (sched n) :=
  rfl

theorem stutter_chain (hcap : 1 ≤ cap) (hs : NoRaise sched) (n k : Nat) :
    workLeft (program fs mainDir cap sched (n + k)) < workLeft (program fs mainDir cap sched n) ∨
      SameWork (program fs mainDir cap sched n) (program fs mainDir cap sched (n + k)) := by
  induction k with
  | zero => exact Or.inr (sameWork_refl _)
  | succ k ih =>
    have hstep := @step_stutter cap fs _ _ (inv_program fs mainDir cap hcap sched (n + k))
      (noneThrew_program fs mainDir cap sched hs (n + k)) (sched (n + k)) (fun id => hs (n + k) id)
    rw [← program_succ] at hstep
    rw [← Nat.add_assoc]
    rcases ih with h1 | h1
    · left
      rcases hstep with h2 | h2
      · omega
      · rw [sameWork_workLeft h2]
        exact h1
    · rcases hstep with h2 | h2
      · left
        rw [sameWork_workLeft h1] at h2
        exact h2
      · right
        exact sameWork_trans h1 h2

/-- A task that is running and keeps being scheduled makes the work left go
down. -/
theorem progress_of_enabled (hcap : 1 ≤ cap) (hs : NoRaise sched) (n m : Nat) (hnm : n ≤ m)
    (hen : ∀ σ : State, σ.tasks = (program fs mainDir cap sched n).tasks →
      workLeft (step fs σ (sched m)) < workLeft σ) :
    ∃ m', workLeft (program fs mainDir cap sched m') < workLeft (program fs mainDir cap sched n) := by
  obtain ⟨k, rfl⟩ := Nat.exists_eq_add_of_le hnm
  rcases stutter_chain fs mainDir cap sched hcap hs n k with h1 | h1
  · exact ⟨n + k, h1⟩
  · refine ⟨n + k + 1, ?_⟩
    rw [program_succ]
    have := hen _ (sameWork_tasks h1)
    rw [sameWork_workLeft h1] at this
    exact this

theorem quiet_wait (hcap : 1 ≤ cap) (hs : NoRaise sched) (r : Nat) : ∀ (d n : Nat),
    sched (n + d) = Event.main →
    Quiet (program fs mainDir cap sched n) →
    (program fs mainDir cap sched n).pc ≠ Pc.exited →
    mainRank (program fs mainDir cap sched n) ≤ r →
    (∀ n', Quiet (program fs mainDir cap sched n') →
      (program fs mainDir cap sched n').pc ≠ Pc.exited →
      mainRank (program fs mainDir cap sched n') < r →
      workLeft (program fs mainDir cap sched n') = workLeft (program fs mainDir cap sched n) →
      ∃ m, workLeft (program fs mainDir cap sched m) < workLeft (program fs mainDir cap sched n) ∨
        (program fs mainDir cap sched m).pc = Pc.exited) →
    ∃ m, workLeft (program fs mainDir cap sched m) < workLeft (program fs mainDir cap sched n) ∨
      (program fs mainDir cap sched m).pc = Pc.exited := by
  intro d
  induction d with
  | zero =>
    intro n hmain hq hpc hr ih
    have hstep := mainStep_quiet (inv_program fs mainDir cap hcap sched n) hq hpc
    have hsucc : program fs mainDir cap sched (n + 1) = mainStep (program fs mainDir cap sched n) := by
      rw [program_succ]
      simp only [Nat.add_zero] at hmain
      rw [hmain]
      rfl
    rw [← hsucc] at hstep
    rcases hstep with h1 | h1 | ⟨h1, h2⟩
    · exact ⟨n + 1, Or.inl h1⟩
    · exact ⟨n + 1, Or.inr h1⟩
    · by_cases hex : (program fs mainDir cap sched (n + 1)).pc = Pc.exited
      · exact ⟨n + 1, Or.inr hex⟩
      · apply ih (n + 1) _ hex (by omega) (sameWork_workLeft h1)
        intro id t ht
        rw [sameWork_tasks h1] at ht
        exact hq id t ht
  | succ d ihd =>
    intro n hmain hq hpc hr ih
    by_cases hm : sched n = Event.main
    · have hstep := mainStep_quiet (inv_program fs mainDir cap hcap sched n) hq hpc
      have hsucc : program fs mainDir cap sched (n + 1) = mainStep (program fs mainDir cap sched n) := by
        rw [program_succ, hm]
        rfl
      rw [← hsucc] at hstep
      rcases hstep with h1 | h1 | ⟨h1, h2⟩
      · exact ⟨n + 1, Or.inl h1⟩
      · exact ⟨n + 1, Or.inr h1⟩
      · by_cases hex : (program fs mainDir cap sched (n + 1)).pc = Pc.exited
        · exact ⟨n + 1, Or.inr hex⟩
        · apply ih (n + 1) _ hex (by omega) (sameWork_workLeft h1)
          intro id t ht
          rw [sameWork_tasks h1] at ht
          exact hq id t ht
    · have hsame : program fs mainDir cap sched (n + 1) = program fs mainDir cap sched n := by
        rw [program_succ]
        exact step_quiet_idle fs _ hq _ (fun id => hs n id) hm
      have := ihd (n + 1) (by rw [← hmain]; congr 1; omega) (by rw [hsame]; exact hq)
        (by rw [hsame]; exact hpc) (by rw [hsame]; exact hr)
        (by rw [hsame]; exact ih)
      rw [hsame] at this
      exact this

theorem quiet_progress (hcap : 1 ≤ cap) (hs : NoRaise sched) (hf : Fair sched) (r : Nat) :
    ∀ n, Quiet (program fs mainDir cap sched n) →
      (program fs mainDir cap sched n).pc ≠ Pc.exited →
      mainRank (program fs mainDir cap sched n) ≤ r →
      ∃ m, workLeft (program fs mainDir cap sched m) < workLeft (program fs mainDir cap sched n) ∨
        (program fs mainDir cap sched m).pc = Pc.exited := by
  induction r with
  | zero =>
    intro n hq hpc hr
    rcases hf.1 n with ⟨m, hnm, hm⟩
    obtain ⟨d, rfl⟩ := Nat.exists_eq_add_of_le hnm
    refine quiet_wait fs mainDir cap sched hcap hs 0 d n hm hq hpc hr ?_
    intro n' _ _ h0
    omega
  | succ r ih =>
    intro n hq hpc hr
    rcases hf.1 n with ⟨m, hnm, hm⟩
    obtain ⟨d, rfl⟩ := Nat.exists_eq_add_of_le hnm
    refine quiet_wait fs mainDir cap sched hcap hs (r + 1) d n hm hq hpc hr ?_
    intro n' hq' hpc' hr' hw
    rcases ih n' hq' hpc' (by omega) with ⟨m', hm'⟩
    refine ⟨m', ?_⟩
    rw [← hw]
    exact hm'

end Run

end

section

section Run

variable (fs : FileSystem) (mainDir : FsNode) (cap : Nat) (sched : Nat → Event)

theorem progress (hcap : 1 ≤ cap) (hs : NoRaise sched) (hf : Fair sched) (n : Nat)
    (hpc : (program fs mainDir cap sched n).pc ≠ Pc.exited) :
    ∃ m, workLeft (program fs mainDir cap sched m) < workLeft (program fs mainDir cap sched n) ∨
      (program fs mainDir cap sched m).pc = Pc.exited := by
  by_cases hq : Quiet (program fs mainDir cap sched n)
  · exact quiet_progress fs mainDir cap sched hcap hs hf _ n hq hpc (le_refl _)
  · unfold Quiet at hq
    push_neg at hq
    rcases hq with ⟨id, ⟨w, s⟩, ht, hne⟩
    have hinv := inv_program fs mainDir cap hcap sched n
    have hrun : s = Outcome.running := by
      cases s with
      | running => rfl
      | returned => simp at hne
      | threw =>
        have := noneThrew_program fs mainDir cap sched hs n id
        simp [State.outcome, outcomeOf_of_getElem? _ _ _ ht] at this
    subst hrun
    cases w with
    | search =>
      have h0 := hinv.only_search id _ ht rfl
      subst h0
      rcases hf.2.1 n with ⟨m, hnm, hm⟩
      rcases progress_of_enabled fs mainDir cap sched hcap hs n m hnm (by
        intro σ hσ
        rw [hm]
        exact searchStep_workLeft σ (by rw [hσ]; exact ht)) with ⟨m', hm'⟩
      exact ⟨m', Or.inl hm'⟩
    | count p =>
      rcases hf.2.2 id n with ⟨m, hnm, hm⟩
      rcases progress_of_enabled fs mainDir cap sched hcap hs n m hnm (by
        intro σ hσ
        rw [hm]
        exact finishTask_workLeft fs σ id p (by rw [hσ]; exact ht)) with ⟨m', hm'⟩
      exact ⟨m', Or.inl hm'⟩

theorem exits_of_workLeft (hcap : 1 ≤ cap) (hs : NoRaise sched) (hf : Fair sched) (w : Nat) :
    ∀ n, workLeft (program fs mainDir cap sched n) ≤ w →
      ∃ m, (program fs mainDir cap sched m).pc = Pc.exited := by
  induction w with
  | zero =>
    intro n hw
    by_cases hpc : (program fs mainDir cap sched n).pc = Pc.exited
    · exact ⟨n, hpc⟩
    · rcases progress fs mainDir cap sched hcap hs hf n hpc with ⟨m, h1 | h1⟩
      · omega
      · exact ⟨m, h1⟩
  | succ w ih =>
    intro n hw
    by_cases hpc : (program fs mainDir cap sched n).pc = Pc.exited
    · exact ⟨n, hpc⟩
    · rcases progress fs mainDir cap sched hcap hs hf n hpc with ⟨m, h1 | h1⟩
      · exact ih m (by omega)
      · exact ⟨m, h1⟩

end Run

/-! ## The state when the loop of `main` exits -/

theorem lineSum_append (fs : FileSystem) (a b : List Path) :
    lineSum fs (a ++ b) = lineSum fs a + lineSum fs b := by
  induction a with
  | nil => simp [lineSum]
  | cons p a ih => simp [lineSum, ih]; omega

theorem regularFiles_append (a b : List directory_entry) :
    regularFiles (a ++ b) = regularFiles a ++ regularFiles b := by
  induction a with
  | nil => simp [regularFiles]
  | cons e a ih =>
    simp only [List.cons_append, regularFiles]
    split <;> simp [ih]

mutual
theorem lineSum_walk (fs : FileSystem) : ∀ node : FsNode,
    lineSum fs (regularFiles (walk node)) = expectedNode fs node
  | FsNode.directory p cs => by
    simp only [walk, regularFiles, expectedNode, directory_entry.is_regular_file]
    simpa using lineSum_walkAll fs cs
  | FsNode.regular_file p => by
    simp [walk, regularFiles, expectedNode, directory_entry.is_regular_file, lineSum]
  | FsNode.other p => by
    simp [walk, regularFiles, expectedNode, directory_entry.is_regular_file, lineSum]
theorem lineSum_walkAll (fs : FileSystem) : ∀ nodes : List FsNode,
    lineSum fs (regularFiles (walkAll nodes)) = expectedAll fs nodes
  | [] => by simp [walkAll, regularFiles, expectedAll, lineSum]
  | c :: cs => by
    simp only [walkAll, expectedAll, regularFiles_append, lineSum_append]
    rw [lineSum_walk fs c, lineSum_walkAll fs cs]
end

theorem lineSum_iterator (fs : FileSystem) (mainDir : FsNode) :
    lineSum fs (regularFiles (recursive_directory_iterator mainDir)) = expectedTotal fs mainDir := by
  cases mainDir with
  | directory p cs => exact lineSum_walkAll fs cs
  | regular_file p => simp [recursive_directory_iterator, expectedTotal, regularFiles, lineSum]
  | other p => simp [recursive_directory_iterator, expectedTotal, regularFiles, lineSum]

theorem countedSum_all_returned (fs : FileSystem) (ts : List Task)
    (h : ∀ t ∈ ts, t.state = Outcome.returned) :
    countedSum fs ts = lineSum fs (launchedPaths ts) := by
  induction ts with
  | nil => simp [countedSum, launchedPaths, lineSum]
  | cons a ts ih =>
    have ha := h a (by simp)
    have ih' := ih (fun t ht => h t (by simp [ht]))
    rcases a with ⟨w, s⟩
    simp only at ha
    subst ha
    cases w <;> simp [countedSum, launchedPaths, lineSum, ih']

variable {cap : Nat} {fs : FileSystem} {entries : List directory_entry} {σ : State}

theorem all_returned_at_exit (h : Inv cap fs entries σ) (hpc : σ.pc = Pc.exited) :
    ∀ id, id < σ.tasks.length → σ.outcome id = Outcome.returned := by
  intro id hid
  rcases h.tracked id hid with h1 | h1
  · exact h1
  · rw [State.ids, (h.at_exit hpc).1] at h1
    simp at h1

theorem quiet_at_exit (h : Inv cap fs entries σ) (hpc : σ.pc = Pc.exited) :
    ∀ t ∈ σ.tasks, t.state = Outcome.returned := by
  intro t ht
  rcases List.getElem_of_mem ht with ⟨id, hid, rfl⟩
  have := all_returned_at_exit h hpc id hid
  simp only [State.outcome] at this
  rwa [outcomeOf_of_getElem? _ _ _ (List.getElem?_eq_getElem hid)] at this

theorem launched_at_exit (h : Inv cap fs entries σ) (hpc : σ.pc = Pc.exited) :
    launchedPaths σ.tasks = regularFiles entries := by
  have h0 := h.search_done (all_returned_at_exit h hpc 0 (tasks_pos h))
  have hc := h.conserved
  rw [h0, (h.at_exit hpc).2] at hc
  simpa [regularFiles] using hc

theorem lineCount_of_exit (h : Inv cap fs entries σ) (hpc : σ.pc = Pc.exited) :
    σ.LineCount = lineSum fs (regularFiles entries) % 2 ^ 64 := by
  rw [h.counted, countedSum_all_returned fs _ (quiet_at_exit h hpc), launched_at_exit h hpc]

/-! ## The discovery task -/

theorem foldl_searchEntry_queue (es : List directory_entry) : ∀ σ : State,
    (es.foldl searchEntry σ).m_fileQueue = σ.m_fileQueue ++ regularFiles es := by
  induction es with
  | nil => intro σ; simp [regularFiles]
  | cons e es ih =>
    intro σ
    simp only [List.foldl_cons, regularFiles]
    rw [ih]
    unfold searchEntry
    by_cases hd : e.is_directory = true
    · have hr : e.is_regular_file = false := by
        simp [directory_entry.is_directory] at hd
        simp [directory_entry.is_regular_file, hd]
      simp [hd, hr]
    · by_cases hr : e.is_regular_file = true
      · simp [hd, hr, addToQueue]
      · simp [hd, hr]

/-- Run alone, the discovery task queues the regular files below `dir`, each
once, in the order of the traversal, and nothing else. -/
theorem searchForFilesInDirectory_queue (σ : State) (dir : FsNode) :
    (searchForFilesInDirectory σ dir).m_fileQueue
      = σ.m_fileQueue ++ regularFiles (recursive_directory_iterator dir) :=
  foldl_searchEntry_queue _ σ

/-- The total at the exit of the loop of `main` does not depend on the cap or
on the order in which the tasks run. -/
theorem lineCount_independent (fs : FileSystem) (mainDir : FsNode) (cap₁ cap₂ : Nat)
    (h₁ : 1 ≤ cap₁) (h₂ : 1 ≤ cap₂) (sched₁ sched₂ : Nat → Event) (n₁ n₂ : Nat)
    (e₁ : (program fs mainDir cap₁ sched₁ n₁).pc = Pc.exited)
    (e₂ : (program fs mainDir cap₂ sched₂ n₂).pc = Pc.exited) :
    (program fs mainDir cap₁ sched₁ n₁).LineCount
      = (program fs mainDir cap₂ sched₂ n₂).LineCount := by
  rw [lineCount_of_exit (inv_program fs mainDir cap₁ h₁ sched₁ n₁) e₁,
    lineCount_of_exit (inv_program fs mainDir cap₂ h₂ sched₂ n₂) e₂]

/-! ## A fair schedule -/

theorem noRaise_roundRobin : NoRaise roundRobin := by
  intro n id
  unfold roundRobin
  split <;> simp

theorem fair_roundRobin : Fair roundRobin := by
  refine ⟨?_, ?_, ?_⟩
  · intro n
    refine ⟨3 * n, by omega, ?_⟩
    unfold roundRobin
    have : 3 * n % 3 = 0 := by omega
    simp [this]
  · intro n
    refine ⟨3 * n + 1, by omega, ?_⟩
    unfold roundRobin
    have : (3 * n + 1) % 3 = 1 := by omega
    simp [this]
  · intro id n
    refine ⟨3 * Nat.pair id n + 2, ?_, ?_⟩
    · have := Nat.right_le_pair id n
      omega
    · unfold roundRobin
      have h1 : (3 * Nat.pair id n + 2) % 3 = 2 := by omega
      have h2 : (3 * Nat.pair id n + 2) / 3 = Nat.pair id n := by omega
      simp [h1, h2]

end

/-! ## `processQueue` as a sequence of actions of the main thread -/

theorem scanBody_setPc (σ : State) (pc : Pc) (task : Nat) :
    scanBody { σ with pc := pc } task
      = ({ (scanBody σ task).1 with pc := pc }, (scanBody σ task).2) := by
  unfold scanBody
  simp only [State.outcome]
  split
  · rfl
  · split
    · split
      · rfl
      · split <;> rfl
    · rfl

theorem mainStep_scan (σ : State) (task : Nat) :
    mainStep { σ with pc := Pc.scan task }
      = if task = σ.m_threadList.length then { σ with pc := Pc.topUp }
        else { (scanBody σ task).1 with pc := Pc.scan (scanBody σ task).2 } := by
  simp only [mainStep, scanBody_setPc]

theorem scanLoop_mainStep (fuel : Nat) : ∀ (σ : State) (task : Nat) (σ2 : State),
    scanLoop fuel σ task = some σ2 →
    ∃ k, mainStep^[k] { σ with pc := Pc.scan task } = { σ2 with pc := Pc.topUp } := by
  induction fuel with
  | zero => intro σ task σ2 h; simp [scanLoop] at h
  | succ n ih =>
    intro σ task σ2 h
    unfold scanLoop at h
    split at h
    · rename_i he
      simp only [Option.some.injEq] at h
      subst h
      refine ⟨1, ?_⟩
      simp only [Function.iterate_succ, Function.iterate_zero, Function.comp_apply,
        mainStep_scan, if_pos he, id_eq]
    · rename_i hne
      rcases ih _ _ _ h with ⟨k, hk⟩
      refine ⟨k + 1, ?_⟩
      rw [Function.iterate_succ, Function.comp_apply, mainStep_scan, if_neg hne]
      exact hk

theorem topUpLoop_mainStep (n : Nat) : ∀ σ : State, σ.m_fileQueue.length < n →
    σ.pc = Pc.topUp → ∃ k, mainStep^[k] σ = afterTopUp (topUpLoop n σ) := by
  induction n with
  | zero => intro σ h; omega
  | succ n ih =>
    intro σ hlen hpc
    unfold topUpLoop
    split
    · rename_i hlt
      cases hq : σ.m_fileQueue with
      | nil =>
        refine ⟨1, ?_⟩
        simp only [Function.iterate_succ, Function.iterate_zero, Function.comp_apply, mainStep,
          hpc, if_pos hlt, addLineCountingTask, hq, id_eq]
      | cons p rest =>
        simp only [addLineCountingTask, hq]
        rcases ih { σ with m_fileQueue := rest
                           tasks := σ.tasks ++ [⟨Work.count p, Outcome.running⟩]
                           m_threadList := σ.m_threadList ++ [⟨σ.tasks.length, true⟩] }
          (by simp [hq] at hlen ⊢; omega) hpc with ⟨k, hk⟩
        refine ⟨k + 1, ?_⟩
        rw [Function.iterate_succ, Function.comp_apply]
        have : mainStep σ = { σ with m_fileQueue := rest
                                     tasks := σ.tasks ++ [⟨Work.count p, Outcome.running⟩]
                                     m_threadList := σ.m_threadList ++ [⟨σ.tasks.length, true⟩] } := by
          simp only [mainStep, hpc, if_pos hlt, addLineCountingTask, hq]
        rw [this]
        exact hk
    · rename_i hlt
      refine ⟨1, ?_⟩
      simp only [Function.iterate_succ, Function.iterate_zero, Function.comp_apply, mainStep,
        hpc, if_neg hlt, id_eq]

/-- What `processQueue` computes is what the main thread does, action by
action, from the moment it enters `processQueue` until it returns, when no
other thread acts meanwhile: on `true` it has left the loop of `main`, on
`false` it is about to call `processQueue` again. -/
theorem processQueue_mainStep (σ : State) (hpc : σ.pc = Pc.topUp) (b : Bool) (σ' : State)
    (h : processQueue σ = some (b, σ')) :
    ∃ k, mainStep^[k] σ = { σ' with pc := if b then Pc.exited else Pc.topUp } := by
  rcases topUpLoop_mainStep (σ.m_fileQueue.length + 1) σ (by omega) hpc with ⟨k1, hk1⟩
  unfold processQueue at h
  simp only at h
  split at h
  · rename_i hemp
    simp only [Option.some.injEq, Prod.mk.injEq] at h
    rcases h with ⟨rfl, rfl⟩
    refine ⟨k1, ?_⟩
    rw [hk1]
    simp [afterTopUp, hemp]
  · rename_i hemp
    simp only [Option.map_eq_some'] at h
    rcases h with ⟨σ2, hscan, heq⟩
    simp only [Prod.mk.injEq] at heq
    rcases heq with ⟨rfl, rfl⟩
    rcases scanLoop_mainStep _ _ _ _ hscan with ⟨k2, hk2⟩
    refine ⟨k2 + k1, ?_⟩
    rw [Function.iterate_add, Function.comp_apply, hk1]
    simp only [afterTopUp, hemp]
    simpa using hk2

/-! ## A task that ended with an exception -/

theorem step_threw (fs : FileSystem) (σ : State) (e : Event) (id : Nat)
    (h : σ.outcome id = Outcome.threw) : (step fs σ e).outcome id = Outcome.threw := by
  have hlt : id < σ.tasks.length := by
    by_contra hge
    have : σ.tasks[id]? = none := List.getElem?_eq_none (by omega)
    simp [State.outcome, outcomeOf, this] at h
  have hset : ∀ (i : Nat) (w : Work) (t : Task), σ.tasks[i]? = some ⟨w, Outcome.running⟩ →
      outcomeOf (σ.tasks.set i t) id = Outcome.threw := by
    intro i w t hi
    have hne : id ≠ i := by
      intro he
      subst he
      simp [State.outcome, outcomeOf_of_getElem? _ _ _ hi] at h
    rw [outcomeOf_set_ne _ _ _ _ hne]
    exact h
  cases e with
  | main =>
    simp only [step, State.outcome]
    rcases mainStep_tasks σ with h1 | ⟨⟨p, h1⟩, _⟩
    · rw [h1]; exact h
    · rw [h1, outcomeOf_append _ _ _ hlt]; exact h
  | search =>
    simp only [step, searchStep, searchEntry]
    split
    · rename_i ht
      split
      · exact hset 0 _ _ ht
      · split
        · exact h
        · split
          · exact h
          · exact h
    · exact h
  | finish i =>
    simp only [step, finishTask]
    split
    · rename_i p ht
      exact hset i _ _ ht
    · exact h
  | raise i =>
    simp only [step, raiseTask]
    split
    · rename_i w ht
      exact hset i _ _ ht
    · exact h

/-- Once a task has ended with an exception the loop of `main` never exits:
the handle of that task stays in `m_threadList` for good. -/
theorem threw_never_exits (fs : FileSystem) (mainDir : FsNode) (cap : Nat) (hcap : 1 ≤ cap)
    (sched : Nat → Event) (n id : Nat)
    (h : (program fs mainDir cap sched n).outcome id = Outcome.threw) (k : Nat) :
    (program fs mainDir cap sched (n + k)).pc ≠ Pc.exited := by
  have hk : (program fs mainDir cap sched (n + k)).outcome id = Outcome.threw := by
    induction k with
    | zero => exact h
    | succ k ih => exact step_threw fs _ _ id ih
  intro hpc
  have hinv := inv_program fs mainDir cap hcap sched (n + k)
  have hlt : id < (program fs mainDir cap sched (n + k)).tasks.length := by
    by_contra hge
    have : (program fs mainDir cap sched (n + k)).tasks[id]? = none :=
      List.getElem?_eq_none (by omega)
    simp [State.outcome, outcomeOf, this] at hk
  have := all_returned_at_exit hinv hpc id hlt
  rw [hk] at this
  simp at this

theorem step_tasks_length (fs : FileSystem) (σ : State) (e : Event)
    (h : (step fs σ e).tasks.length ≠ σ.tasks.length) :
    e = Event.main ∧ σ.m_threadList.length < σ.MaxThreadCount := by
  cases e with
  | main =>
    rcases mainStep_tasks σ with h1 | ⟨_, h1⟩
    · simp only [step] at h
      rw [h1] at h
      exact absurd rfl h
    · exact ⟨rfl, h1⟩
  | search =>
    exfalso
    apply h
    simp only [step, searchStep, searchEntry]
    split
    · split
      · simp
      · split
        · rfl
        · split <;> rfl
    · rfl
  | finish i =>
    exfalso
    apply h
    simp only [step, finishTask]
    split
    · simp
    · rfl
  | raise i =>
    exfalso
    apply h
    simp only [step, raiseTask]
    split
    · simp
    · rfl

/-! ## The claims -/

/-- C1: for every directory tree, every cap of at least one and every
interleaving of the threads, whenever the loop of `main` has exited,
`LineCount` is the sum over the regular files of the tree of their newline
bytes plus one, taken as a 64-bit unsigned value (so it is that sum itself
when the sum fits); and when no task ends with an exception and every thread
keeps being scheduled the loop does exit with that value. -/
theorem lineCount_at_exit (fs : FileSystem) (mainDir : FsNode) (cap : Nat)
    (sched : Nat → Event) (hcap : 1 ≤ cap) :
    (∀ n, (program fs mainDir cap sched n).pc = Pc.exited →
      (program fs mainDir cap sched n).LineCount = expectedTotal fs mainDir % 2 ^ 64 ∧
      (expectedTotal fs mainDir < 2 ^ 64 →
        (program fs mainDir cap sched n).LineCount = expectedTotal fs mainDir)) ∧
    (NoRaise sched → Fair sched →
      ∃ n, (program fs mainDir cap sched n).pc = Pc.exited ∧
        (program fs mainDir cap sched n).LineCount = expectedTotal fs mainDir % 2 ^ 64) := by
  have hsafe : ∀ n, (program fs mainDir cap sched n).pc = Pc.exited →
      (program fs mainDir cap sched n).LineCount = expectedTotal fs mainDir % 2 ^ 64 := by
    intro n hpc
    rw [lineCount_of_exit (inv_program fs mainDir cap hcap sched n) hpc, lineSum_iterator]
  refine ⟨?_, ?_⟩
  · intro n hpc
    refine ⟨hsafe n hpc, ?_⟩
    intro hlt
    rw [hsafe n hpc, Nat.mod_eq_of_lt hlt]
  · intro hs hf
    rcases exits_of_workLeft fs mainDir cap sched hcap hs hf _ 0 (le_refl _) with ⟨m, hm⟩
    exact ⟨m, hm, hsafe m hm⟩

/-- The example of the specification: `a.txt` with three newline bytes and an
empty `b.txt` give 5, whatever else the directory holds. -/
theorem lineCount_at_exit_witness :
    1 ≤ 2 ∧ NoRaise roundRobin ∧ Fair roundRobin ∧
      (∃ n, (program exampleFs exampleDir 2 roundRobin n).pc = Pc.exited ∧
        (program exampleFs exampleDir 2 roundRobin n).LineCount = 5) ∧
      (∃ n, (program exampleFs (FsNode.directory "empty" []) 2 roundRobin n).pc = Pc.exited ∧
        (program exampleFs (FsNode.directory "empty" []) 2 roundRobin n).LineCount = 0) := by
  refine ⟨by decide, noRaise_roundRobin, fair_roundRobin, ?_, ?_⟩
  · have h := (lineCount_at_exit exampleFs exampleDir 2 roundRobin (by decide)).2
      noRaise_roundRobin fair_roundRobin
    have h5 : expectedTotal exampleFs exampleDir % 2 ^ 64 = 5 := by decide
    rw [h5] at h
    exact h
  · exact (lineCount_at_exit exampleFs (FsNode.directory "empty" []) 2 roundRobin (by decide)).2
      noRaise_roundRobin fair_roundRobin

/-- C2: the counting task of a file adds to `LineCount`, as a 64-bit unsigned
value, the number of newline bytes of the file plus one, and returns normally;
for an empty file and for a file that cannot be opened it adds one. -/
theorem counting_task_adds_newlines_plus_one (fs : FileSystem) (σ : State) (id : Nat)
    (filePath : Path) (h : σ.tasks[id]? = some ⟨Work.count filePath, Outcome.running⟩) :
    (∀ bytes, fs filePath = some bytes →
      (finishTask fs σ id).LineCount = (σ.LineCount + (bytes.count newline + 1)) % 2 ^ 64 ∧
      (σ.LineCount + (bytes.count newline + 1) < 2 ^ 64 →
        (finishTask fs σ id).LineCount = σ.LineCount + (bytes.count newline + 1))) ∧
    (fs filePath = some [] ∨ fs filePath = none →
      (finishTask fs σ id).LineCount = (σ.LineCount + 1) % 2 ^ 64) ∧
    (finishTask fs σ id).outcome id = Outcome.returned ∧
    (finishTask fs σ id).m_threadList = σ.m_threadList := by
  have hlt : id < σ.tasks.length := lt_of_getElem? _ _ _ h
  have hfin : finishTask fs σ id =
      { σ with LineCount := func fs filePath σ.LineCount
               tasks := σ.tasks.set id ⟨Work.count filePath, Outcome.returned⟩ } := by
    unfold finishTask
    rw [h]
  refine ⟨?_, ?_, ?_, ?_⟩
  · intro bytes hb
    have hmod : (finishTask fs σ id).LineCount
        = (σ.LineCount + (bytes.count newline + 1)) % 2 ^ 64 := by
      rw [hfin]
      simp [func_eq, newlineBytes, hb]
    refine ⟨hmod, ?_⟩
    intro hlt'
    rw [hmod, Nat.mod_eq_of_lt hlt']
  · intro hb
    rw [hfin]
    rcases hb with hb | hb <;> simp [func_eq, newlineBytes, hb]
  · rw [hfin]
    simp only [State.outcome]
    rw [outcomeOf_set_eq _ _ _ hlt]
  · rw [hfin]

/-- The task launched for `a.txt` adds 4. -/
theorem counting_task_adds_newlines_plus_one_witness :
    (addLineCountingTask (addToQueue (construct exampleDir 2) "dir/a.txt")).2.tasks[1]?
        = some ⟨Work.count "dir/a.txt", Outcome.running⟩ ∧
      (finishTask exampleFs
        (addLineCountingTask (addToQueue (construct exampleDir 2) "dir/a.txt")).2 1).LineCount
        = 4 :=
  ⟨by decide,
    (counting_task_adds_newlines_plus_one exampleFs
      (addLineCountingTask (addToQueue (construct exampleDir 2) "dir/a.txt")).2 1 "dir/a.txt"
      (by decide)).1 [97, 10, 98, 10, 99, 10] (by decide) |>.1⟩

/-- C3: with a cap of at least one, in every state in which the loop of
`main` has exited (`processQueue` returned true) the discovery task has
returned and visited every entry, the queue is empty, no handle is tracked,
every task launched has returned, and the paths handed to counting tasks are
the regular files of the tree, in the order of the traversal. -/
theorem exit_means_all_counted (fs : FileSystem) (mainDir : FsNode) (cap : Nat)
    (sched : Nat → Event) (n : Nat) (hcap : 1 ≤ cap)
    (hexit : (program fs mainDir cap sched n).pc = Pc.exited) :
    (program fs mainDir cap sched n).tasks[0]? = some ⟨Work.search, Outcome.returned⟩ ∧
    (program fs mainDir cap sched n).dirIter = [] ∧
    (program fs mainDir cap sched n).m_fileQueue = [] ∧
    (program fs mainDir cap sched n).m_threadList = [] ∧
    (∀ t ∈ (program fs mainDir cap sched n).tasks, t.state = Outcome.returned) ∧
    launchedPaths (program fs mainDir cap sched n).tasks
      = regularFiles (recursive_directory_iterator mainDir) := by
  have hinv := inv_program fs mainDir cap hcap sched n
  have hall := all_returned_at_exit hinv hexit
  refine ⟨?_, hinv.search_done (hall 0 (tasks_pos hinv)), (hinv.at_exit hexit).2,
    (hinv.at_exit hexit).1, quiet_at_exit hinv hexit, launched_at_exit hinv hexit⟩
  rcases hinv.search_first with ⟨st, hs⟩
  have h0 := hall 0 (tasks_pos hinv)
  simp only [State.outcome] at h0
  rw [outcomeOf_of_getElem? _ _ _ hs] at h0
  simp only at h0
  rw [hs, h0]

/-- A run of the example with one slot: the discovery task first, then the
two files one after the other. -/
theorem exit_means_all_counted_witness :
    1 ≤ 1 ∧
    (program exampleFs exampleDir 1
      (playList [Event.search, Event.search, Event.search, Event.search, Event.search,
        Event.main, Event.main, Event.main, Event.main, Event.main, Event.finish 1,
        Event.main, Event.main, Event.main, Event.main, Event.finish 2]) 19).pc = Pc.exited ∧
    launchedPaths (program exampleFs exampleDir 1
      (playList [Event.search, Event.search, Event.search, Event.search, Event.search,
        Event.main, Event.main, Event.main, Event.main, Event.main, Event.finish 1,
        Event.main, Event.main, Event.main, Event.main, Event.finish 2]) 19).tasks
      = regularFiles (recursive_directory_iterator exampleDir) :=
  ⟨by decide, by decide,
    (exit_means_all_counted exampleFs exampleDir 1 _ 19 (by decide) (by decide)).2.2.2.2.2⟩

/-- C4, at a discovery task that ended with an exception after queueing
`a.txt`, with one slot: the scan logs the exception and returns false, but the
handle is still in `m_threadList`, now invalid, and `a.txt` is still queued;
38 actions of the main thread later the handle is still there and no counting
task has been launched. -/
theorem exception_leaves_handle_tracked :
    (program exampleFs exampleDir 1 (playList [Event.search, Event.raise 0]) 2).outcome 0
      = Outcome.threw ∧
    (processQueue (program exampleFs exampleDir 1 (playList [Event.search, Event.raise 0]) 2)).map
      (fun r => (r.1, r.2.m_threadList, r.2.cerr, r.2.m_fileQueue, r.2.LineCount))
      = some (false, [⟨0, false⟩], [0], ["dir/a.txt"], 0) ∧
    (program exampleFs exampleDir 1 (playList [Event.search, Event.raise 0]) 40).m_threadList
      = [⟨0, false⟩] ∧
    (program exampleFs exampleDir 1 (playList [Event.search, Event.raise 0]) 40).m_fileQueue
      = ["dir/a.txt"] ∧
    (program exampleFs exampleDir 1 (playList [Event.search, Event.raise 0]) 40).tasks.length
      = 1 := by
  decide

/-- C5 fails: once the discovery task of an empty directory has returned,
`processQueue` removes the only handle and returns false with nothing left
tracked. -/
theorem processQueue_false_with_none_tracked :
    (program exampleFs (FsNode.directory "empty" []) 1 (playList [Event.search]) 1).m_threadList
      = [⟨0, true⟩] ∧
    (processQueue
      (program exampleFs (FsNode.directory "empty" []) 1 (playList [Event.search]) 1)).map
      (fun r => (r.1, r.2.m_threadList)) = some (false, []) := by
  decide

/-- C5 as amended: run alone, `processQueue` returns, and it returns true
exactly when no handle is tracked once the top-up loop is over, before the
scan; that is, when no handle was tracked on entry and nothing could be
launched. It then leaves the state as it found it. -/
theorem processQueue_true_iff (σ : State) :
    ∃ b σ', processQueue σ = some (b, σ') ∧
      (b = true ↔ (topUpLoop (σ.m_fileQueue.length + 1) σ).m_threadList = []) ∧
      (b = true ↔ σ.m_threadList = [] ∧ (σ.m_fileQueue = [] ∨ σ.MaxThreadCount = 0)) ∧
      (b = true → σ' = σ ∧ σ'.m_threadList = []) := by
  have hspec := topUpLoop_spec (σ.m_fileQueue.length + 1) σ (by omega)
  have hiff : (topUpLoop (σ.m_fileQueue.length + 1) σ).m_threadList = [] ↔
      σ.m_threadList = [] ∧ (σ.m_fileQueue = [] ∨ σ.MaxThreadCount = 0) := by
    constructor
    · intro hnil
      have hlen : (topUpLoop (σ.m_fileQueue.length + 1) σ).m_threadList.length = 0 := by
        rw [hnil]; rfl
      have hσ : σ.m_threadList.length = 0 := by
        have := hspec.2.2.1
        omega
      have heq := hspec.2.2.2 (by rw [hlen, hσ])
      refine ⟨List.length_eq_zero.1 hσ, ?_⟩
      rcases hspec.1 with h1 | h1
      · right
        rw [hlen] at h1
        omega
      · left
        rw [heq] at h1
        exact h1
    · rintro ⟨hnil, hq | hc⟩
      · simp [topUpLoop, addLineCountingTask, hq, hnil]
      · simp [topUpLoop, hc, hnil]
  rcases processQueue_returns σ with ⟨b, σ', hp⟩
  refine ⟨b, σ', hp, ?_⟩
  unfold processQueue at hp
  simp only at hp
  split at hp
  · rename_i hemp
    have hnil : (topUpLoop (σ.m_fileQueue.length + 1) σ).m_threadList = [] := by
      simpa using hemp
    simp only [Option.some.injEq, Prod.mk.injEq] at hp
    rcases hp with ⟨rfl, rfl⟩
    have hσ := (hiff.1 hnil).1
    have heq := hspec.2.2.2 (by rw [hnil, hσ])
    exact ⟨by simp [hnil], by simpa using hiff.1 hnil, fun _ => ⟨heq, hnil⟩⟩
  · rename_i hemp
    have hnil : ¬ (topUpLoop (σ.m_fileQueue.length + 1) σ).m_threadList = [] := by
      simpa using hemp
    simp only [Option.map_eq_some'] at hp
    rcases hp with ⟨σ2, _, heq⟩
    simp only [Prod.mk.injEq] at heq
    rcases heq with ⟨rfl, rfl⟩
    refine ⟨by simp [hnil], ?_, by simp⟩
    simp only [Bool.false_eq_true, false_iff]
    exact fun h => hnil (hiff.2 h)

/-- C6: for every directory tree and every cap of at least one, when no
task ends with an exception and every thread keeps being scheduled, the loop
`while (fileQ.processQueue() == false)` exits after finitely many actions of
the main thread. -/
theorem main_loop_terminates (fs : FileSystem) (mainDir : FsNode) (cap : Nat)
    (sched : Nat → Event) (hcap : 1 ≤ cap) (hs : NoRaise sched) (hf : Fair sched) :
    ∃ n, (program fs mainDir cap sched n).pc = Pc.exited :=
  exits_of_workLeft fs mainDir cap sched hcap hs hf _ 0 (le_refl _)

/-- The scan of an empty directory with one slot ends. -/
theorem main_loop_terminates_witness :
    1 ≤ 1 ∧ NoRaise roundRobin ∧ Fair roundRobin ∧
      ∃ n, (program exampleFs (FsNode.directory "empty" []) 1 roundRobin n).pc = Pc.exited :=
  ⟨by decide, noRaise_roundRobin, fair_roundRobin,
    main_loop_terminates exampleFs (FsNode.directory "empty" []) 1 roundRobin (by decide)
      noRaise_roundRobin fair_roundRobin⟩

/-- C7: with a cap of at least one, in every state of every run the number of
tracked handles, the discovery handle included, is at most `MaxThreadCount`,
which is the cap given to the constructor; and an event launches a task only
if it is an action of the main thread taken while fewer handles than the cap
are tracked. -/
theorem tracked_handles_within_cap (fs : FileSystem) (mainDir : FsNode) (cap : Nat)
    (sched : Nat → Event) (n : Nat) (hcap : 1 ≤ cap) :
    (program fs mainDir cap sched n).m_threadList.length
        ≤ (program fs mainDir cap sched n).MaxThreadCount ∧
    (program fs mainDir cap sched n).MaxThreadCount = cap ∧
    ((program fs mainDir cap sched (n + 1)).tasks.length
        ≠ (program fs mainDir cap sched n).tasks.length →
      sched n = Event.main ∧ (program fs mainDir cap sched n).m_threadList.length < cap) := by
  have hinv := inv_program fs mainDir cap hcap sched n
  refine ⟨by rw [hinv.cap_eq]; exact hinv.size_le, hinv.cap_eq, ?_⟩
  intro hne
  have := step_tasks_length fs (program fs mainDir cap sched n) (sched n) hne
  rw [hinv.cap_eq] at this
  exact this

/-- With two slots the example never tracks more than two handles, and the
launch of the task for `a.txt` happens with one handle tracked. -/
theorem tracked_handles_within_cap_witness :
    1 ≤ 2 ∧
    (program exampleFs exampleDir 2 (playList [Event.search, Event.main]) 1).m_threadList.length
      ≤ 2 ∧
    (program exampleFs exampleDir 2 (playList [Event.search, Event.main]) 2).tasks.length
      ≠ (program exampleFs exampleDir 2 (playList [Event.search, Event.main]) 1).tasks.length ∧
    (program exampleFs exampleDir 2 (playList [Event.search, Event.main]) 1).m_threadList.length
      < 2 := by
  have h := tracked_handles_within_cap exampleFs exampleDir 2
    (playList [Event.search, Event.main]) 1 (by decide)
  have hne : (program exampleFs exampleDir 2 (playList [Event.search, Event.main]) 2).tasks.length
      ≠ (program exampleFs exampleDir 2 (playList [Event.search, Event.main]) 1).tasks.length := by
    decide
  exact ⟨by decide, by decide, hne, (h.2.2 hne).2⟩

/-- C8: `addLineCountingTask` returns false, changing nothing, exactly when the
queue is empty; otherwise it removes the front path and launches one counting
task for it; after any sequence of `addToQueue` and `addLineCountingTask`
calls on a new object the paths launched followed by the paths still queued
are the paths pushed, in the order they were pushed. -/
theorem queue_is_fifo_and_launches_once :
    (∀ σ : State, ((addLineCountingTask σ).1 = false ↔ σ.m_fileQueue = []) ∧
      ((addLineCountingTask σ).1 = false → (addLineCountingTask σ).2 = σ)) ∧
    (∀ (σ : State) (p : Path) (rest : List Path), σ.m_fileQueue = p :: rest →
      (addLineCountingTask σ).1 = true ∧
      (addLineCountingTask σ).2.m_fileQueue = rest ∧
      (addLineCountingTask σ).2.tasks = σ.tasks ++ [⟨Work.count p, Outcome.running⟩] ∧
      (addLineCountingTask σ).2.m_threadList = σ.m_threadList ++ [⟨σ.tasks.length, true⟩]) ∧
    (∀ (calls : List QueueCall) (mainDir : FsNode) (cap : Nat),
      launchedPaths (callSeq calls (construct mainDir cap)).tasks
          ++ (callSeq calls (construct mainDir cap)).m_fileQueue
        = pushedPaths calls) := by
  refine ⟨?_, ?_, ?_⟩
  · intro σ
    cases hq : σ.m_fileQueue <;> simp [addLineCountingTask, hq]
  · intro σ p rest hq
    simp [addLineCountingTask, hq]
  · intro calls mainDir cap
    rw [callSeq_fifo]
    simp [construct, startFileSearchTask, launchedPaths]

/-- Two pushes, two launches, a launch on the empty queue and a third push:
the first two paths are launched, in the order pushed, the third is queued. -/
theorem queue_is_fifo_and_launches_once_witness :
    launchedPaths (callSeq
        [QueueCall.addToQueue "x", QueueCall.addToQueue "y", QueueCall.addLineCountingTask,
          QueueCall.addLineCountingTask, QueueCall.addLineCountingTask, QueueCall.addToQueue "z"]
        (construct exampleDir 3)).tasks
      ++ (callSeq
        [QueueCall.addToQueue "x", QueueCall.addToQueue "y", QueueCall.addLineCountingTask,
          QueueCall.addLineCountingTask, QueueCall.addLineCountingTask, QueueCall.addToQueue "z"]
        (construct exampleDir 3)).m_fileQueue
      = ["x", "y", "z"] :=
  queue_is_fifo_and_launches_once.2.2
    [QueueCall.addToQueue "x", QueueCall.addToQueue "y", QueueCall.addLineCountingTask,
      QueueCall.addLineCountingTask, QueueCall.addLineCountingTask, QueueCall.addToQueue "z"]
    exampleDir 3

/-- C9, at two tracked handles that have both completed normally: the scan
erases the first, steps over the second without examining it, and leaves it
tracked; at a single completed handle the iterator is incremented at
`end()`. -/
theorem scan_skips_handle_after_erase :
    (program exampleFs exampleDir 2
      (playList [Event.search, Event.search, Event.search, Event.search, Event.search,
        Event.main, Event.finish 1]) 7).m_threadList = [⟨0, true⟩, ⟨1, true⟩] ∧
    (program exampleFs exampleDir 2
      (playList [Event.search, Event.search, Event.search, Event.search, Event.search,
        Event.main, Event.finish 1]) 7).outcome 0 = Outcome.returned ∧
    (program exampleFs exampleDir 2
      (playList [Event.search, Event.search, Event.search, Event.search, Event.search,
        Event.main, Event.finish 1]) 7).outcome 1 = Outcome.returned ∧
    (processQueue (program exampleFs exampleDir 2
      (playList [Event.search, Event.search, Event.search, Event.search, Event.search,
        Event.main, Event.finish 1]) 7)).map (fun r => (r.1, r.2.m_threadList, r.2.pastEnd))
      = some (false, [⟨1, true⟩], false) ∧
    (processQueue
      (program exampleFs (FsNode.directory "empty" []) 1 (playList [Event.search]) 1)).map
      (fun r => (r.2.m_threadList, r.2.pastEnd)) = some ([], true) := by
  decide

/-- C10, on a machine with one hardware thread: the cap is 0, and with it the
loop of `main` exits with nothing counted and both files still queued. -/
theorem processorCount_single_core :
    processorCount 1 = 0 ∧
    (program exampleFs exampleDir (processorCount 1)
      (playList [Event.search, Event.search, Event.search, Event.search, Event.search]) 9).pc
      = Pc.exited ∧
    (program exampleFs exampleDir (processorCount 1)
      (playList [Event.search, Event.search, Event.search, Event.search, Event.search]) 9).LineCount
      = 0 ∧
    (program exampleFs exampleDir (processorCount 1)
      (playList [Event.search, Event.search, Event.search, Event.search, Event.search]) 9).m_fileQueue
      = ["dir/a.txt", "dir/b.txt"] := by
  decide

/-- For every other value of `hardware_concurrency()` the cap is as the
comment in `main` says: one less than the value, and 1 for the value 0. -/
theorem processorCount_eq (h : Nat) (hh : h < 2 ^ 32) :
    processorCount h = if h = 0 then 1 else h - 1 := by
  unfold processorCount
  split
  · rfl
  · omega

end FileLineCounter
